import Mathlib

/-!
Verification of the pointer grace-area subsystem
(`packages/bits-ui/src/lib/internal/useGraceArea.svelte.ts`).

The geometry kernel and the event-driven state machine are embedded
shallowly: JavaScript numbers are modelled as rationals (`ℚ`), arrays as
lists, and the reactive state as an explicit record.  Hull chains that the
source keeps in push/pop order at the end of an array are represented
most-recent-first (so the source's `hull[hull.length - 1]` is the list
head); the chronological array is recovered with `reverse`.
-/

namespace GraceArea

/-- 2D point in client viewport coordinates.
Source: `type Point = { x: number; y: number }`. -/
structure Point where
  x : ℚ
  y : ℚ
deriving DecidableEq, Repr

instance : Inhabited Point := ⟨⟨0, 0⟩⟩

/-- Source: `type Polygon = Point[]`. -/
abbrev Polygon := List Point

/-- Rectangle bounds as produced by `getBoundingClientRect()`:
viewport coordinates, `top ≤ bottom` and `left ≤ right` for real
DOM rectangles (not enforced by the type). -/
structure Rect where
  top : ℚ
  right : ℚ
  bottom : ℚ
  left : ℚ
deriving DecidableEq, Repr

/-- Source: `type Side` from `useFloatingLayer.svelte.js`. -/
inductive Side where
  | top
  | bottom
  | left
  | right
deriving DecidableEq, Repr

/-- Source: `getExitSideFromRect`.  The `switch (Math.min(...))` compares
the minimum against `left`, `right`, `top`, `bottom` in that order; the
unreachable `throw new Error("unreachable")` default branch is modelled
as `none`. -/
def getExitSideFromRect (point : Point) (rect : Rect) : Option Side :=
  let top := |rect.top - point.y|
  let bottom := |rect.bottom - point.y|
  let right := |rect.right - point.x|
  let left := |rect.left - point.x|
  let m := min (min (min top bottom) right) left
  if m = left then some Side.left
  else if m = right then some Side.right
  else if m = top then some Side.top
  else if m = bottom then some Side.bottom
  else none

/-- Source: `getPaddedExitPoints(exitPoint, exitSide, padding = 5)`.
The default padding `5` is supplied explicitly at call sites. -/
def getPaddedExitPoints (exitPoint : Point) (exitSide : Side) (padding : ℚ) :
    List Point :=
  match exitSide with
  | Side.top =>
      [⟨exitPoint.x - padding, exitPoint.y + padding⟩,
       ⟨exitPoint.x + padding, exitPoint.y + padding⟩]
  | Side.bottom =>
      [⟨exitPoint.x - padding, exitPoint.y - padding⟩,
       ⟨exitPoint.x + padding, exitPoint.y - padding⟩]
  | Side.left =>
      [⟨exitPoint.x + padding, exitPoint.y - padding⟩,
       ⟨exitPoint.x + padding, exitPoint.y + padding⟩]
  | Side.right =>
      [⟨exitPoint.x - padding, exitPoint.y - padding⟩,
       ⟨exitPoint.x - padding, exitPoint.y + padding⟩]

/-- Source: `getPointsFromRect`: the four corners TL, TR, BR, BL. -/
def getPointsFromRect (rect : Rect) : List Point :=
  [⟨rect.left, rect.top⟩,
   ⟨rect.right, rect.top⟩,
   ⟨rect.right, rect.bottom⟩,
   ⟨rect.left, rect.bottom⟩]

/-- One iteration of the ray-casting loop of `isPointInPolygon`:
`((yi > y) !== (yj > y)) && (x < (xj - xi) * (y - yi) / (yj - yi) + xi)`.
`pc` is `polygon[i]`, `pp` is `polygon[j]`. -/
def edgeCrosses (x y : ℚ) (pc pp : Point) : Bool :=
  (decide (pc.y > y) != decide (pp.y > y))
    && decide (x < (pp.x - pc.x) * (y - pc.y) / (pp.y - pc.y) + pc.x)

/-- Source: `isPointInPolygon` (substack ray casting): iterate `i` over the
indices with `j = i - 1` wrapping to the last index at `i = 0`, toggling
`inside` on each crossing edge. -/
def isPointInPolygon (point : Point) (polygon : Polygon) : Bool :=
  (List.range polygon.length).foldl
    (fun inside i =>
      let pc := polygon.getD i ⟨0, 0⟩
      let pp := polygon.getD (if i = 0 then polygon.length - 1 else i - 1) ⟨0, 0⟩
      if edgeCrosses point.x point.y pc pp then !inside else inside)
    false

/-- The lexicographic (x, then y) order implied by the comparator passed to
`Array.prototype.sort` in `getHull`. -/
def lexLe (a b : Point) : Prop :=
  a.x < b.x ∨ (a.x = b.x ∧ a.y ≤ b.y)

instance : DecidableRel lexLe := fun a b => by
  unfold lexLe; infer_instance

instance : IsTotal Point lexLe where
  total a b := by
    rcases lt_trichotomy a.x b.x with h | h | h
    · exact Or.inl (Or.inl h)
    · rcases le_total a.y b.y with h' | h'
      · exact Or.inl (Or.inr ⟨h, h'⟩)
      · exact Or.inr (Or.inr ⟨h.symm, h'⟩)
    · exact Or.inr (Or.inl h)

instance : IsTrans Point lexLe where
  trans a b c hab hbc := by
    rcases hab with h | ⟨hx, hy⟩ <;> rcases hbc with h' | ⟨hx', hy'⟩
    · exact Or.inl (h.trans h')
    · exact Or.inl (hx' ▸ h)
    · exact Or.inl (hx ▸ h')
    · exact Or.inr ⟨hx.trans hx', hy.trans hy'⟩

instance : IsAntisymm Point lexLe where
  antisymm a b hab hba := by
    rcases hab with h | ⟨hx, hy⟩ <;> rcases hba with h' | ⟨hx', hy'⟩
    · exact absurd h' (not_lt.mpr h.le)
    · exact absurd h (not_lt.mpr hx'.le)
    · exact absurd h' (not_lt.mpr hx.le)
    · obtain ⟨ax, ay⟩ := a
      obtain ⟨bx, tmp⟩ := b
      simp only [Point.mk.injEq]
      exact ⟨hx, le_antisymm hy hy'⟩

/-- The sort performed on the copy of the input in `getHull`:
`Array.prototype.sort` with a consistent comparator produces the list
ordered by `lexLe` (for `Point`, comparator-equal elements are equal, so
any correct sort yields this list). -/
def sortPoints (points : List Point) : List Point :=
  List.insertionSort lexLe points

/-- The cross-product expression governing pops in `getHullPresorted`:
the source pops `q` while
`(q.x - r.x) * (p.y - r.y) >= (q.y - r.y) * (p.x - r.x)`,
i.e. while `cross r q p ≥ 0`. -/
def cross (r q p : Point) : ℚ :=
  (q.x - r.x) * (p.y - r.y) - (q.y - r.y) * (p.x - r.x)

/-- The inner `while (hull.length >= 2)` loop of `getHullPresorted`:
the chain is most-recent-first, so `q = hull[len-1]` is the head and
`r = hull[len-2]` the second element. -/
def popWhile (p : Point) : List Point → List Point
  | q :: r :: rest =>
      if cross r q p ≥ 0 then popWhile p (r :: rest) else q :: r :: rest
  | hull => hull

/-- One chain-building `for` loop of `getHullPresorted`: each point is
pushed after the pops.  The result is most-recent-first. -/
def buildChain (points : List Point) : List Point :=
  points.foldl (fun hull p => p :: popWhile p hull) []

/-- Source: `getHullPresorted`.  The two scans produce `upperHull` and
`lowerHull` chronologically (after the final `pop()`, modelled as
dropping the most recent element and reversing). -/
def getHullPresorted (points : List Point) : List Point :=
  if points.length ≤ 1 then points
  else
    let upperHull := (buildChain points).tail.reverse
    let lowerHull := (buildChain points.reverse).tail.reverse
    if upperHull.length = 1 ∧ lowerHull.length = 1 ∧
        upperHull.headI = lowerHull.headI then upperHull
    else upperHull ++ lowerHull

/-- Source: `getHull`: copy, sort by (x, then y) ascending, then
`getHullPresorted`. -/
def getHull (points : List Point) : List Point :=
  getHullPresorted (sortPoints points)

/-- Stated from the spec (for the refinement claim C4): the side whose
boundary distance is smallest, ties broken in the order left, right,
top, bottom (first minimal match wins). -/
def exitSideSpec (point : Point) (rect : Rect) : Side :=
  let dt := |rect.top - point.y|
  let db := |rect.bottom - point.y|
  let dr := |rect.right - point.x|
  let dl := |rect.left - point.x|
  if dl ≤ dt ∧ dl ≤ db ∧ dl ≤ dr then Side.left
  else if dr ≤ dt ∧ dr ≤ db then Side.right
  else if dt ≤ db then Side.top
  else Side.bottom

/-- Mutual collinearity of a point list: every three members have zero
cross product. -/
def CollinearPts (l : List Point) : Prop :=
  ∀ x ∈ l, ∀ y ∈ l, ∀ z ∈ l, cross x y z = 0

/-- The reversed lexicographic order (chains are kept newest-first). -/
def lexGe (a b : Point) : Prop := lexLe b a

/-- A point `z` is covered by the (chronological) chain pair `(a, b)`:
lexically between the endpoints and on or below the segment line. -/
def Cov (a b z : Point) : Prop :=
  lexLe a z ∧ lexLe z b ∧ cross a b z ≤ 0

/-- Coverage along a newest-first chain: `z` is covered by some
consecutive pair, or equals the oldest chain element. -/
def CovChain : List Point → Point → Prop
  | [], _ => False
  | [a], z => z = a
  | b :: a :: t, z => Cov a b z ∨ CovChain (a :: t) z

/-- Every consecutive pair line of a newest-first chain has `z` on or
below it. -/
def PairsBelow : List Point → Point → Prop
  | a :: b :: t, z => cross b a z ≤ 0 ∧ PairsBelow (b :: t) z
  | _, _ => True

/-- Strict right turns along a newest-first chain (the source pops
non-left turns, so surviving triples are strict). -/
def Turns : List Point → Prop
  | a :: b :: c :: t => cross c b a < 0 ∧ Turns (b :: c :: t)
  | _ => True

/-- The newest pair of a chain has `z` on or below it (trivial for
chains shorter than a pair). -/
def TopBelow : List Point → Point → Prop
  | a :: b :: _, z => cross b a z ≤ 0
  | _, _ => True

/-- The scan invariant of one monotone-chain pass: the chain is a
nonempty, lexically nonincreasing (newest-first) selection of the
processed points, with strict turns, whose newest element is the last
processed and oldest element the first processed point, covering every
processed point. -/
def ChainInv (done h : List Point) : Prop :=
  h ≠ [] ∧ List.Pairwise lexGe h ∧ (∀ c ∈ h, c ∈ done) ∧ Turns h ∧
  h.head? = done.getLast? ∧ h.getLast? = done.head? ∧
  (∀ z ∈ done, CovChain h z)

/-- A point as a pair in the plane `ℚ × ℚ`. -/
def toPair (p : Point) : ℚ × ℚ := (p.x, p.y)

/-- Central reflection, used to transport upper-chain facts to the
lower chain. -/
def pointNeg (p : Point) : Point := ⟨-p.x, -p.y⟩

/-- A heap of arrays for the frame claim C10: references are indices
into the store, `allocArray` appends a fresh cell, `writeArray`
overwrites a cell in place.  This models JavaScript array identity. -/
structure ArrayStore where
  cells : List (List Point)
deriving Repr

/-- Allocate a fresh array cell, returning its reference. -/
def allocArray (st : ArrayStore) (xs : List Point) : ℕ × ArrayStore :=
  (st.cells.length, ⟨st.cells ++ [xs]⟩)

/-- Read the array behind a reference. -/
def readArray (st : ArrayStore) (r : ℕ) : List Point :=
  st.cells.getD r []

/-- Overwrite the array behind a reference (in-place mutation). -/
def writeArray (st : ArrayStore) (r : ℕ) (xs : List Point) : ArrayStore :=
  ⟨st.cells.set r xs⟩

/-- Source: `getHull` with array identity made explicit: `points.slice()`
allocates a fresh copy, `sort` mutates that copy in place, and
`getHullPresorted` builds its result in freshly allocated arrays
(`slice`, `upperHull`, `lowerHull`, `concat`), returned as a fresh
cell.  The input reference is never written. -/
def getHullWithStore (st : ArrayStore) (r : ℕ) : ℕ × ArrayStore :=
  let input := readArray st r
  let s1 := allocArray st input
  let st2 := writeArray s1.2 s1.1 (sortPoints input)
  allocArray st2 (getHullPresorted (sortPoints input))


/-- The mutable session state of `useGraceArea`: the stored polygon
(`pointerGraceArea`, `none` for null/undefined), the auto-resetting
transit flag, and — spec-modelled — whether the flag's 300ms reset timer
is pending. -/
structure GraceState where
  pointerGraceArea : Option Polygon
  isPointerInTransit : Bool
  resetTimerArmed : Bool
deriving DecidableEq, Repr

/-- Modelled from the spec: `boxAutoReset` (its source,
`boxAutoReset.svelte.js`, is not under `src/`).  Per the spec an
assignment replaces value and pending timer atomically
(cancel-then-schedule); the reset timer is pending exactly after an
assignment of a non-default value, and `clear` cancels it.  This is the
assignment `isPointerInTransit.value = v`. -/
def setInTransit (s : GraceState) (v : Bool) : GraceState :=
  { s with isPointerInTransit := v, resetTimerArmed := v }

/-- Modelled from the spec: the 300ms auto-reset timer firing — it flips
the flag back to the default `false` and leaves the polygon untouched;
nothing happens if no timer is pending. -/
def timerFire (s : GraceState) : GraceState :=
  if s.resetTimerArmed then
    { s with isPointerInTransit := false, resetTimerArmed := false }
  else s

/-- Source: `handleRemoveGraceArea`. -/
def handleRemoveGraceArea (s : GraceState) : GraceState :=
  setInTransit { s with pointerGraceArea := none } false

/-- Source: `handleCreateGraceArea` on a `pointerleave` of the trigger:
`exitPoint` is the event's client position, `currentTargetRect` the
trigger's bounding rect, `hoverTargetRect` the content's bounding rect.
The (unreachable, see C9) `throw` inside `getExitSideFromRect` is
propagated as `none`. -/
def handleCreateGraceArea (s : GraceState) (exitPoint : Point)
    (currentTargetRect hoverTargetRect : Rect) : Option GraceState :=
  match getExitSideFromRect exitPoint currentTargetRect with
  | none => none
  | some exitSide =>
      let paddedExitPoints := getPaddedExitPoints exitPoint exitSide 5
      let hoverTargetPoints := getPointsFromRect hoverTargetRect
      let graceArea := getHull (paddedExitPoints ++ hoverTargetPoints)
      some (setInTransit { s with pointerGraceArea := some graceArea } true)

/-- The target of a document `pointermove` as the handler observes it:
either not an element-like node, or an element together with whether the
trigger / content element currently exists and contains it (the
source's `triggerNode.value?.contains(target)` and
`contentNode.value?.contains(target)`, `undefined` collapsing to
`false`). -/
inductive MoveTarget where
  | nonElement
  | element (containedInTrigger containedInContent : Bool)
deriving DecidableEq, Repr

/-- Source: `handleTrackPointerGrace` for one document `pointermove`:
the successor state, paired with whether `pointerExit.trigger()` was
called. -/
def handleTrackPointerGrace (s : GraceState) (target : MoveTarget)
    (pos : Point) : GraceState × Bool :=
  match s.pointerGraceArea with
  | none => (s, false)
  | some area =>
      match target with
      | MoveTarget.nonElement => (s, false)
      | MoveTarget.element containedInTrigger containedInContent =>
          let hasEnteredTarget := containedInTrigger || containedInContent
          let isPointerOutsideGraceArea := !(isPointInPolygon pos area)
          if hasEnteredTarget = true then (handleRemoveGraceArea s, false)
          else if isPointerOutsideGraceArea = true then (handleRemoveGraceArea s, true)
          else (s, false)

/-- One observable event of a grace-area session: grace-area creation
(trigger `pointerleave` with the content element present), removal
(content `pointerleave`), a document `pointermove`, or the auto-reset
timer firing. -/
inductive GraceEvent where
  | create (exitPoint : Point) (currentTargetRect hoverTargetRect : Rect)
  | contentLeave
  | move (target : MoveTarget) (pos : Point)
  | timer
deriving DecidableEq, Repr

/-- The step function of the tracker: successor state and whether the
exit notifier fired.  A `create` whose exit-side classification would
throw (which never happens, see C9) leaves the state unchanged. -/
def stepEvent (s : GraceState) : GraceEvent → GraceState × Bool
  | GraceEvent.create e tr hr =>
      match handleCreateGraceArea s e tr hr with
      | none => (s, false)
      | some s2 => (s2, false)
  | GraceEvent.contentLeave => (handleRemoveGraceArea s, false)
  | GraceEvent.move t pos => handleTrackPointerGrace s t pos
  | GraceEvent.timer => (timerFire s, false)

end GraceArea

namespace GraceArea

/-! Helper lemmas shared by several claims. -/

/-- The ray-casting edge test does not depend on the orientation of the
edge: traversing the same geometric edge in either direction gives the
same crossing verdict. -/
theorem edgeCrosses_comm (x y : ℚ) (a b : Point) :
    edgeCrosses x y a b = edgeCrosses x y b a := by
  unfold edgeCrosses
  by_cases hy : a.y > y ↔ b.y > y
  · simp [decide_eq_decide.mpr hy]
  · have hne : a.y ≠ b.y := by
      intro h; rw [h] at hy; exact hy Iff.rfl
    have h1 : b.y - a.y ≠ 0 := sub_ne_zero.mpr (Ne.symm hne)
    have h2 : a.y - b.y ≠ 0 := sub_ne_zero.mpr hne
    have hthr : (b.x - a.x) * (y - a.y) / (b.y - a.y) + a.x
        = (a.x - b.x) * (y - b.y) / (a.y - b.y) + b.x := by
      field_simp
      ring
    rw [hthr]
    cases hd1 : decide (a.y > y) <;> cases hd2 : decide (b.y > y) <;> simp

/-- Closed form of the ray-casting test on the four-corner polygon of a
rectangle: only the two vertical edges can be crossed. -/
theorem pip_rect (rect : Rect) (p : Point) :
    isPointInPolygon p (getPointsFromRect rect) =
      ((decide (rect.top > p.y) != decide (rect.bottom > p.y)) &&
       (decide (p.x < rect.left) != decide (p.x < rect.right))) := by
  simp only [isPointInPolygon, getPointsFromRect, edgeCrosses]
  norm_num [List.range_succ]
  by_cases h1 : p.y < rect.top <;> by_cases h2 : p.y < rect.bottom <;>
    by_cases h3 : p.x < rect.left <;> by_cases h4 : p.x < rect.right <;>
    simp [h1, h2, h3, h4]

/-- The `switch` in `getExitSideFromRect` implements the argmin with tie
order left, right, top, bottom. -/
theorem getExitSideFromRect_eq (p : Point) (r : Rect) :
    getExitSideFromRect p r = some (exitSideSpec p r) := by
  simp only [getExitSideFromRect, exitSideSpec]
  set a := |r.top - p.y| with ha
  set b := |r.bottom - p.y| with hb
  set c := |r.right - p.x| with hc
  set d := |r.left - p.x| with hd
  by_cases h1 : d ≤ a ∧ d ≤ b ∧ d ≤ c
  · have hm : min (min (min a b) c) d = d := by
      rw [min_eq_right_iff, le_min_iff, le_min_iff]; tauto
    rw [if_pos hm, if_pos h1]
  · have hmne : ¬ min (min (min a b) c) d = d := by
      rw [min_eq_right_iff, le_min_iff, le_min_iff]; tauto
    have hlt : min (min a b) c ≤ d := by
      rcases not_and_or.mp h1 with h | h
      · exact le_trans (le_trans (min_le_left _ _) (min_le_left _ _)) (le_of_not_le h)
      rcases not_and_or.mp h with h | h
      · exact le_trans (le_trans (min_le_left _ _) (min_le_right _ _)) (le_of_not_le h)
      · exact le_trans (min_le_right _ _) (le_of_not_le h)
    have hm : min (min (min a b) c) d = min (min a b) c := min_eq_left hlt
    rw [if_neg hmne, if_neg h1, hm]
    by_cases h2 : c ≤ a ∧ c ≤ b
    · have hc2 : min (min a b) c = c := by
        rw [min_eq_right_iff, le_min_iff]; tauto
      rw [if_pos hc2, if_pos h2]
    · have hc2 : ¬ min (min a b) c = c := by
        rw [min_eq_right_iff, le_min_iff]; tauto
      have hlt2 : min a b ≤ c := by
        rcases not_and_or.mp h2 with h | h
        · exact le_trans (min_le_left _ _) (le_of_not_le h)
        · exact le_trans (min_le_right _ _) (le_of_not_le h)
      rw [if_neg hc2, if_neg h2, min_eq_left hlt2]
      by_cases h3 : a ≤ b
      · rw [if_pos (min_eq_left h3), if_pos h3]
      · rw [if_neg ?hn, if_pos (min_eq_right (le_of_not_le h3)), if_neg h3]
        case hn => rw [min_eq_left_iff]; exact h3

/-- C4: for every finite point and rectangle, `getExitSideFromRect`
returns the side whose boundary distance is smallest, ties resolved in
the order left, right, top, bottom (first minimal match wins) — i.e. it
agrees with the argmin function `exitSideSpec` stated from the spec. -/
theorem C4_exit_side_argmin (p : Point) (r : Rect) :
    getExitSideFromRect p r = some (exitSideSpec p r) :=
  getExitSideFromRect_eq p r

/-- C9: for every point and rectangle with (finite) rational
coordinates, `getExitSideFromRect` never reaches the defensive default
branch (modelled as `none`, standing for the `throw`): one of the four
side cases is always taken. -/
theorem C9_exit_side_total (p : Point) (r : Rect) :
    (getExitSideFromRect p r).isSome = true := by
  rw [getExitSideFromRect_eq p r]
  rfl

/-- C5: for every point and every polygon of length 0, 1, or 2,
`isPointInPolygon` returns `false` — degenerate polygons have no
interior. -/
theorem C5_degenerate_polygon_no_interior (point : Point) (polygon : Polygon)
    (h : polygon.length ≤ 2) :
    isPointInPolygon point polygon = false := by
  match polygon with
  | [] => rfl
  | [a] => simp [isPointInPolygon, edgeCrosses, List.range_succ]
  | [a, b] =>
    simp only [isPointInPolygon, List.length_cons, List.length_nil]
    norm_num [List.range_succ]
    rw [show (edgeCrosses point.x point.y b a) = edgeCrosses point.x point.y a b from
      (edgeCrosses_comm ..).symm]
    cases edgeCrosses point.x point.y a b <;> simp
  | _ :: _ :: _ :: _ => simp at h

/-- Witness for C5 at the concrete two-point polygon. -/
theorem C5_degenerate_polygon_no_interior_witness :
    ([(⟨0, 0⟩ : Point), ⟨1, 1⟩] : Polygon).length ≤ 2 ∧
      isPointInPolygon ⟨2, 3⟩ [⟨0, 0⟩, ⟨1, 1⟩] = false :=
  ⟨by decide, C5_degenerate_polygon_no_interior ⟨2, 3⟩ [⟨0, 0⟩, ⟨1, 1⟩] (by decide)⟩

/-- C6: for an axis-aligned rectangle's four-corner polygon, every point
strictly inside the rectangle tests `true` and every point strictly
outside tests `false`. -/
theorem C6_rect_polygon_membership (rect : Rect) (p : Point)
    (hlr : rect.left < rect.right) (htb : rect.top < rect.bottom) :
    (rect.left < p.x ∧ p.x < rect.right ∧ rect.top < p.y ∧ p.y < rect.bottom →
      isPointInPolygon p (getPointsFromRect rect) = true) ∧
    (p.x < rect.left ∨ rect.right < p.x ∨ p.y < rect.top ∨ rect.bottom < p.y →
      isPointInPolygon p (getPointsFromRect rect) = false) := by
  rw [pip_rect]
  constructor
  · rintro ⟨h1, h2, h3, h4⟩
    have e1 : decide (rect.top > p.y) = false := decide_eq_false (by linarith)
    have e2 : decide (rect.bottom > p.y) = true := decide_eq_true (by linarith)
    have e3 : decide (p.x < rect.left) = false := decide_eq_false (by linarith)
    have e4 : decide (p.x < rect.right) = true := decide_eq_true (by linarith)
    simp [e1, e2, e3, e4]
  · rintro (h | h | h | h)
    · have e3 : decide (p.x < rect.left) = true := decide_eq_true (by linarith)
      have e4 : decide (p.x < rect.right) = true := decide_eq_true (by linarith)
      simp [e3, e4]
    · have e3 : decide (p.x < rect.left) = false := decide_eq_false (by linarith)
      have e4 : decide (p.x < rect.right) = false := decide_eq_false (by linarith)
      simp [e3, e4]
    · have e1 : decide (rect.top > p.y) = true := decide_eq_true (by linarith)
      have e2 : decide (rect.bottom > p.y) = true := decide_eq_true (by linarith)
      simp [e1, e2]
    · have e1 : decide (rect.top > p.y) = false := decide_eq_false (by linarith)
      have e2 : decide (rect.bottom > p.y) = false := decide_eq_false (by linarith)
      simp [e1, e2]

/-- Witness for C6 at a concrete rectangle, with one inside point and
one outside point checked through the theorem. -/
theorem C6_rect_polygon_membership_witness :
    (0 : ℚ) < 10 ∧ (0 : ℚ) < 10 ∧
      isPointInPolygon ⟨5, 5⟩ (getPointsFromRect ⟨0, 10, 10, 0⟩) = true ∧
      isPointInPolygon ⟨11, 5⟩ (getPointsFromRect ⟨0, 10, 10, 0⟩) = false :=
  ⟨by norm_num, by norm_num,
    (C6_rect_polygon_membership ⟨0, 10, 10, 0⟩ ⟨5, 5⟩ (by norm_num) (by norm_num)).1
      (by norm_num),
    (C6_rect_polygon_membership ⟨0, 10, 10, 0⟩ ⟨11, 5⟩ (by norm_num) (by norm_num)).2
      (by norm_num)⟩

/-- Reduction helper: a pointermove with no stored polygon is ignored. -/
theorem track_none (s : GraceState) (t : MoveTarget) (pos : Point)
    (h : s.pointerGraceArea = none) :
    handleTrackPointerGrace s t pos = (s, false) := by
  unfold handleTrackPointerGrace
  simp [h]

/-- Reduction helper: a pointermove whose target is not element-like is
ignored. -/
theorem track_nonElement (s : GraceState) (pos : Point) :
    handleTrackPointerGrace s MoveTarget.nonElement pos = (s, false) := by
  unfold handleTrackPointerGrace
  rcases h : s.pointerGraceArea with _ | area <;> simp

/-- Reduction helper: closed form of the pointermove handler when a
polygon is stored and the target is an element. -/
theorem track_element (s : GraceState) (area : Polygon)
    (h : s.pointerGraceArea = some area) (cin ccon : Bool) (pos : Point) :
    handleTrackPointerGrace s (MoveTarget.element cin ccon) pos
      = (if (cin || ccon) = true then (handleRemoveGraceArea s, false)
         else if isPointInPolygon pos area = false then (handleRemoveGraceArea s, true)
         else (s, false)) := by
  unfold handleTrackPointerGrace
  simp only [h]
  by_cases h1 : (cin || ccon) = true <;>
    by_cases h2 : isPointInPolygon pos area <;>
    simp [h1, h2]

/-- Reduction helper: a successful grace-area creation stores the hull of
the padded exit points and content corners and raises the flag. -/
theorem create_eq_some (s : GraceState) (e : Point) (tr hr : Rect)
    (s2 : GraceState) (h : handleCreateGraceArea s e tr hr = some s2) :
    s2 = setInTransit
      { s with pointerGraceArea := some (getHull
          (getPaddedExitPoints e (exitSideSpec e tr) 5 ++ getPointsFromRect hr)) } true := by
  unfold handleCreateGraceArea at h
  rw [getExitSideFromRect_eq] at h
  simp only [Option.some.injEq] at h
  exact h.symm

/-- Concrete evaluation, stage 1: sorting the six points of a
(degenerate) grace-area construction. -/
theorem sort_zero_eval :
    sortPoints [⟨5, -5⟩, ⟨5, 5⟩, ⟨0, 0⟩, ⟨0, 0⟩, ⟨0, 0⟩, ⟨0, 0⟩]
      = [⟨0, 0⟩, ⟨0, 0⟩, ⟨0, 0⟩, ⟨0, 0⟩, ⟨5, -5⟩, ⟨5, 5⟩] := by
  norm_num [sortPoints, List.insertionSort, List.orderedInsert, lexLe]

/-- Concrete evaluation, stage 2: the upper-chain scan. -/
theorem chain_up_zero_eval :
    buildChain [⟨0, 0⟩, ⟨0, 0⟩, ⟨0, 0⟩, ⟨0, 0⟩, ⟨5, -5⟩, ⟨5, 5⟩]
      = [⟨5, 5⟩, ⟨0, 0⟩] := by
  norm_num [buildChain, popWhile, cross]

/-- Concrete evaluation, stage 3: the lower-chain scan. -/
theorem chain_low_zero_eval :
    buildChain [⟨5, 5⟩, ⟨5, -5⟩, ⟨0, 0⟩, ⟨0, 0⟩, ⟨0, 0⟩, ⟨0, 0⟩]
      = [⟨0, 0⟩, ⟨5, -5⟩, ⟨5, 5⟩] := by
  norm_num [buildChain, popWhile, cross]

/-- Concrete evaluation, stage 4: the hull of the degenerate
construction is a triangle. -/
theorem hull_zero_eval :
    getHull [⟨5, -5⟩, ⟨5, 5⟩, ⟨0, 0⟩, ⟨0, 0⟩, ⟨0, 0⟩, ⟨0, 0⟩]
      = [⟨0, 0⟩, ⟨5, 5⟩, ⟨5, -5⟩] := by
  rw [getHull, sort_zero_eval]
  norm_num [getHullPresorted, chain_up_zero_eval, chain_low_zero_eval]

/-- Concrete evaluation: creating a grace area from an all-zero trigger
rect and an all-zero content rect stores the triangle hull. -/
theorem create_zero_eval :
    handleCreateGraceArea ⟨none, false, false⟩ ⟨0, 0⟩ ⟨0, 0, 0, 0⟩ ⟨0, 0, 0, 0⟩
      = some ⟨some [⟨0, 0⟩, ⟨5, 5⟩, ⟨5, -5⟩], true, true⟩ := by
  have hside : getExitSideFromRect ⟨0, 0⟩ ⟨0, 0, 0, 0⟩ = some Side.left := by
    norm_num [getExitSideFromRect]
  unfold handleCreateGraceArea
  rw [hside]
  norm_num [getPaddedExitPoints, getPointsFromRect, hull_zero_eval, setInTransit]

/-- Concrete evaluation: a point inside the triangle hull. -/
theorem pip_tri_inside :
    isPointInPolygon ⟨4, 0⟩ [⟨0, 0⟩, ⟨5, 5⟩, ⟨5, -5⟩] = true := by
  norm_num [isPointInPolygon, edgeCrosses, List.range_succ]

/-- Concrete evaluation: a point outside the triangle hull. -/
theorem pip_tri_outside :
    isPointInPolygon ⟨100, 100⟩ [⟨0, 0⟩, ⟨5, 5⟩, ⟨5, -5⟩] = false := by
  norm_num [isPointInPolygon, edgeCrosses, List.range_succ]

/-- Step lemma: the `create` event through the step function. -/
theorem stepEvent_create (s : GraceState) (e : Point) (tr hr : Rect) :
    stepEvent s (GraceEvent.create e tr hr)
      = (setInTransit { s with pointerGraceArea := some (getHull
          (getPaddedExitPoints e (exitSideSpec e tr) 5 ++ getPointsFromRect hr)) } true,
         false) := by
  show (match handleCreateGraceArea s e tr hr with
        | none => (s, false)
        | some s2 => (s2, false)) = _
  unfold handleCreateGraceArea
  rw [getExitSideFromRect_eq]

/-- Step lemma: content `pointerleave` clears the state. -/
theorem stepEvent_contentLeave (s : GraceState) :
    stepEvent s GraceEvent.contentLeave = (handleRemoveGraceArea s, false) := rfl

/-- Step lemma: a document pointermove delegates to the handler. -/
theorem stepEvent_move (s : GraceState) (t : MoveTarget) (pos : Point) :
    stepEvent s (GraceEvent.move t pos) = handleTrackPointerGrace s t pos := rfl

/-- Step lemma: the timer event. -/
theorem stepEvent_timer (s : GraceState) :
    stepEvent s GraceEvent.timer = (timerFire s, false) := rfl

/-- Counterexample to C1 as stated: from a reachable state — a concrete
grace-area creation followed by the 300ms auto-reset timer firing
(leaving `inTransit` false with the polygon still non-null) — the next
document pointermove geometry check is not a no-op: it clears the state
and fires the exit notifier, even though no new polygon was created in
between. -/
theorem C1_timer_noop_counterexample :
    handleCreateGraceArea ⟨none, false, false⟩ ⟨0, 0⟩ ⟨0, 0, 0, 0⟩ ⟨0, 0, 0, 0⟩
      = some ⟨some [⟨0, 0⟩, ⟨5, 5⟩, ⟨5, -5⟩], true, true⟩ ∧
    timerFire ⟨some [⟨0, 0⟩, ⟨5, 5⟩, ⟨5, -5⟩], true, true⟩
      = ⟨some [⟨0, 0⟩, ⟨5, 5⟩, ⟨5, -5⟩], false, false⟩ ∧
    handleTrackPointerGrace ⟨some [⟨0, 0⟩, ⟨5, 5⟩, ⟨5, -5⟩], false, false⟩
        (MoveTarget.element false false) ⟨100, 100⟩
      = (⟨none, false, false⟩, true) := by
  refine ⟨create_zero_eval, rfl, ?_⟩
  rw [track_element ⟨some [⟨0, 0⟩, ⟨5, 5⟩, ⟨5, -5⟩], false, false⟩
    [⟨0, 0⟩, ⟨5, 5⟩, ⟨5, -5⟩] rfl false false ⟨100, 100⟩]
  simp [pip_tri_outside, handleRemoveGraceArea, setInTransit]

/-- C1 (amended): `inTransit = true ↔ polygon ≠ null` is established by
grace-area creation and preserved by every event other than the
auto-reset timer (re-entry, polygon exit and content-leave clear both
together).  Once the timer fires, `inTransit` is false while the polygon
stays non-null, and — unlike the original claim — subsequent pointermove
geometry checks stay live: a move inside the polygon whose target is not
contained in trigger/content is a no-op, but a move outside the polygon
still clears the state and fires the exit notifier. -/
theorem C1_transit_flag_invariant (s : GraceState) :
    (∀ e tr hr s2, handleCreateGraceArea s e tr hr = some s2 →
      s2.isPointerInTransit = true ∧ s2.pointerGraceArea ≠ none) ∧
    (∀ ev, ev ≠ GraceEvent.timer →
      (s.isPointerInTransit = true ↔ s.pointerGraceArea ≠ none) →
      ((stepEvent s ev).1.isPointerInTransit = true ↔
        (stepEvent s ev).1.pointerGraceArea ≠ none)) ∧
    (∀ area, s.pointerGraceArea = some area → s.resetTimerArmed = true →
      (timerFire s).isPointerInTransit = false ∧
      (timerFire s).pointerGraceArea = some area ∧
      (∀ pos, isPointInPolygon pos area = true →
        handleTrackPointerGrace (timerFire s) (MoveTarget.element false false) pos
          = (timerFire s, false)) ∧
      (∀ pos, isPointInPolygon pos area = false →
        handleTrackPointerGrace (timerFire s) (MoveTarget.element false false) pos
          = (handleRemoveGraceArea (timerFire s), true) ∧
        (handleRemoveGraceArea (timerFire s)).pointerGraceArea = none)) := by
  refine ⟨?_, ?_, ?_⟩
  · intro e tr hr s2 h
    rw [create_eq_some s e tr hr s2 h]
    exact ⟨rfl, by simp [setInTransit]⟩
  · intro ev hev hiff
    cases ev with
    | create e tr hr =>
        rw [stepEvent_create]
        simp [setInTransit]
    | contentLeave =>
        rw [stepEvent_contentLeave]
        simp [handleRemoveGraceArea, setInTransit]
    | move t pos =>
        rw [stepEvent_move]
        cases t with
        | nonElement => rw [track_nonElement]; exact hiff
        | element cin ccon =>
            rcases harea : s.pointerGraceArea with _ | area
            · rw [track_none s _ pos harea]; exact hiff
            · rw [track_element s area harea cin ccon pos]
              by_cases h1 : (cin || ccon) = true
              · simp [h1, handleRemoveGraceArea, setInTransit]
              · by_cases h2 : isPointInPolygon pos area = false
                · simp [h1, h2, handleRemoveGraceArea, setInTransit]
                · simp only [h1, h2, if_false]
                  simpa using hiff
    | timer => exact absurd rfl hev
  · intro area harea htimer
    have ht : timerFire s = { s with isPointerInTransit := false, resetTimerArmed := false } := by
      unfold timerFire
      rw [htimer]
      simp
    have harea2 : (timerFire s).pointerGraceArea = some area := by
      rw [ht]; exact harea
    refine ⟨by rw [ht], harea2, ?_, ?_⟩
    · intro pos hin
      rw [track_element (timerFire s) area harea2 false false pos]
      simp [hin]
    · intro pos hout
      rw [track_element (timerFire s) area harea2 false false pos]
      simp [hout, handleRemoveGraceArea, setInTransit]

/-- Witness for C1 (amended) at the concrete post-creation triangle
state: the timer leaves the polygon in place and an inside move is a
no-op. -/
theorem C1_transit_flag_invariant_witness :
    (⟨some [⟨0, 0⟩, ⟨5, 5⟩, ⟨5, -5⟩], true, true⟩ : GraceState).pointerGraceArea
        = some [⟨0, 0⟩, ⟨5, 5⟩, ⟨5, -5⟩] ∧
    (⟨some [⟨0, 0⟩, ⟨5, 5⟩, ⟨5, -5⟩], true, true⟩ : GraceState).resetTimerArmed = true ∧
    isPointInPolygon ⟨4, 0⟩ [⟨0, 0⟩, ⟨5, 5⟩, ⟨5, -5⟩] = true ∧
    handleTrackPointerGrace
        (timerFire ⟨some [⟨0, 0⟩, ⟨5, 5⟩, ⟨5, -5⟩], true, true⟩)
        (MoveTarget.element false false) ⟨4, 0⟩
      = (timerFire ⟨some [⟨0, 0⟩, ⟨5, 5⟩, ⟨5, -5⟩], true, true⟩, false) :=
  ⟨rfl, rfl, pip_tri_inside,
    ((C1_transit_flag_invariant ⟨some [⟨0, 0⟩, ⟨5, 5⟩, ⟨5, -5⟩], true, true⟩).2.2
      [⟨0, 0⟩, ⟨5, 5⟩, ⟨5, -5⟩] rfl rfl).2.2.1 ⟨4, 0⟩ pip_tri_inside⟩

/-- C3: for every document pointermove evaluated while a polygon is
stored: a target contained in trigger or content clears the state with
no notification (re-entry takes precedence, regardless of the pointer
position); otherwise a position outside the polygon clears the state and
fires the notifier exactly once; otherwise nothing changes and nothing
fires.  Clearing means polygon null and inTransit false. -/
theorem C3_move_precedence (s : GraceState) (area : Polygon)
    (h : s.pointerGraceArea = some area)
    (cin ccon : Bool) (pos : Point) :
    ((cin || ccon) = true →
      handleTrackPointerGrace s (MoveTarget.element cin ccon) pos
        = (handleRemoveGraceArea s, false)) ∧
    ((cin || ccon) = false → isPointInPolygon pos area = false →
      handleTrackPointerGrace s (MoveTarget.element cin ccon) pos
        = (handleRemoveGraceArea s, true)) ∧
    ((cin || ccon) = false → isPointInPolygon pos area = true →
      handleTrackPointerGrace s (MoveTarget.element cin ccon) pos = (s, false)) ∧
    (handleRemoveGraceArea s).pointerGraceArea = none ∧
    (handleRemoveGraceArea s).isPointerInTransit = false := by
  rw [track_element s area h cin ccon pos]
  refine ⟨?_, ?_, ?_, rfl, rfl⟩
  · intro h1; simp [h1]
  · intro h1 h2; simp [h1, h2]
  · intro h1 h2; simp [h1, h2]

/-- Witness for C3 at the concrete triangle state: a contained-target
move clears silently even though the pointer position is far outside the
polygon (re-entry precedence). -/
theorem C3_move_precedence_witness :
    (⟨some [⟨0, 0⟩, ⟨5, 5⟩, ⟨5, -5⟩], true, true⟩ : GraceState).pointerGraceArea
        = some [⟨0, 0⟩, ⟨5, 5⟩, ⟨5, -5⟩] ∧
    (true || false) = true ∧
    handleTrackPointerGrace ⟨some [⟨0, 0⟩, ⟨5, 5⟩, ⟨5, -5⟩], true, true⟩
        (MoveTarget.element true false) ⟨100, 100⟩
      = (handleRemoveGraceArea ⟨some [⟨0, 0⟩, ⟨5, 5⟩, ⟨5, -5⟩], true, true⟩, false) :=
  ⟨rfl, rfl,
    (C3_move_precedence ⟨some [⟨0, 0⟩, ⟨5, 5⟩, ⟨5, -5⟩], true, true⟩
      [⟨0, 0⟩, ⟨5, 5⟩, ⟨5, -5⟩] rfl true false ⟨100, 100⟩).1 rfl⟩

/-- C8: for every exit point and the default padding 5,
`getPaddedExitPoints` produces exactly the two offset points of the
directionality table, in order. -/
theorem C8_padded_exit_points (e : Point) :
    getPaddedExitPoints e Side.top 5 =
      [⟨e.x - 5, e.y + 5⟩, ⟨e.x + 5, e.y + 5⟩] ∧
    getPaddedExitPoints e Side.bottom 5 =
      [⟨e.x - 5, e.y - 5⟩, ⟨e.x + 5, e.y - 5⟩] ∧
    getPaddedExitPoints e Side.left 5 =
      [⟨e.x + 5, e.y - 5⟩, ⟨e.x + 5, e.y + 5⟩] ∧
    getPaddedExitPoints e Side.right 5 =
      [⟨e.x - 5, e.y - 5⟩, ⟨e.x - 5, e.y + 5⟩] :=
  ⟨rfl, rfl, rfl, rfl⟩

/-- Setting the cell just past a list appends in place. -/
theorem set_append_singleton (l : List (List Point)) (a b : List Point) :
    (l ++ [a]).set l.length b = l ++ [b] := by
  induction l with
  | nil => rfl
  | cons x xs ih => simp [List.set, ih]

/-- C10: `getHull` never mutates its argument array: after the call the
input reference holds the same elements in the same order, and the
returned hull lives in a freshly allocated array distinct from the
input. -/
theorem C10_getHull_no_mutation (st : ArrayStore) (r : ℕ)
    (h : r < st.cells.length) :
    readArray (getHullWithStore st r).2 r = readArray st r ∧
    (getHullWithStore st r).1 ≠ r ∧
    readArray (getHullWithStore st r).2 (getHullWithStore st r).1
      = getHull (readArray st r) := by
  unfold getHullWithStore allocArray writeArray readArray
  simp only [set_append_singleton]
  refine ⟨?_, ?_, ?_⟩
  · rw [List.getD_append _ _ _ _ (by simp [h]; omega)]
    exact List.getD_append _ _ _ _ h
  · simp
    omega
  · rw [List.getD_append_right _ _ _ _ (by simp)]
    simp [getHull]

/-- Witness for C10 at a concrete one-cell store. -/
theorem C10_getHull_no_mutation_witness :
    (0 : ℕ) < (ArrayStore.mk [[⟨0, 0⟩, ⟨1, 1⟩]]).cells.length ∧
    readArray (getHullWithStore ⟨[[⟨0, 0⟩, ⟨1, 1⟩]]⟩ 0).2 0
      = readArray ⟨[[⟨0, 0⟩, ⟨1, 1⟩]]⟩ 0 ∧
    (getHullWithStore ⟨[[⟨0, 0⟩, ⟨1, 1⟩]]⟩ 0).1 ≠ 0 :=
  ⟨by decide,
    (C10_getHull_no_mutation ⟨[[⟨0, 0⟩, ⟨1, 1⟩]]⟩ 0 (by decide)).1,
    (C10_getHull_no_mutation ⟨[[⟨0, 0⟩, ⟨1, 1⟩]]⟩ 0 (by decide)).2.1⟩

/-- `lexLe` is reflexive. -/
theorem lexLe_refl (a : Point) : lexLe a a := Or.inr ⟨rfl, le_refl _⟩

/-- The sort used by `getHull` produces a `lexLe`-sorted list. -/
theorem sortPoints_sorted (l : List Point) : List.Sorted lexLe (sortPoints l) :=
  List.sorted_insertionSort lexLe l

/-- The sort used by `getHull` permutes its input. -/
theorem sortPoints_perm (l : List Point) : List.Perm (sortPoints l) l :=
  List.perm_insertionSort lexLe l

/-- Degenerate cross products vanish. -/
theorem cross_self_right (r q : Point) : cross r q q = 0 := by
  unfold cross; ring

/-- Degenerate cross products vanish (repeated base point). -/
theorem cross_self_mid (r p : Point) : cross r r p = 0 := by
  unfold cross; ring

/-- A duplicated chain top is popped when the same point arrives. -/
theorem popWhile_pair_self (p : Point) : popWhile p [p, p] = [p] := by
  simp [popWhile, cross_self_mid]

/-- Scanning further copies of the same point leaves the chain at two
copies. -/
theorem foldl_chain_replicate (p : Point) :
    ∀ k, List.foldl (fun hull q => q :: popWhile q hull) [p, p] (List.replicate k p)
      = [p, p]
  | 0 => rfl
  | k + 1 => by
      rw [List.replicate_succ, List.foldl_cons, popWhile_pair_self]
      exact foldl_chain_replicate p k

/-- The chain of a constant list of length at least two is two copies. -/
theorem buildChain_replicate (p : Point) (k : ℕ) :
    buildChain (List.replicate (k + 2) p) = [p, p] := by
  unfold buildChain
  rw [List.replicate_succ, List.replicate_succ, List.foldl_cons, List.foldl_cons]
  show List.foldl _ (p :: popWhile p [p]) _ = _
  rw [show popWhile p [p] = [p] by simp [popWhile]]
  exact foldl_chain_replicate p k

/-- The hull of a constant list is the single point. -/
theorem getHullPresorted_replicate (p : Point) (n : ℕ) (h : 1 ≤ n) :
    getHullPresorted (List.replicate n p) = [p] := by
  match n, h with
  | 1, _ => rfl
  | (k + 2), _ =>
      unfold getHullPresorted
      rw [if_neg (by simp [List.length_replicate])]
      rw [List.reverse_replicate, buildChain_replicate]
      simp

/-- A chain of fewer than two points never pops. -/
theorem popWhile_singleton (p a : Point) : popWhile p [a] = [a] := by
  simp [popWhile]

/-- On mutually collinear input every arriving point pops the chain top
(cross products vanish), so the chain stays `[current, first]`. -/
theorem chain_aux (a : Point) (S : List Point)
    (hS : ∀ x ∈ S, ∀ y ∈ S, cross a x y = 0) :
    ∀ (rest : List Point) (c : Point), c ∈ S → (∀ p ∈ rest, p ∈ S) →
      List.foldl (fun hull q => q :: popWhile q hull) [c, a] rest
        = [rest.getLastD c, a]
  | [], c, _, _ => rfl
  | p :: rest, c, hc, hrest => by
      rw [List.foldl_cons]
      have hp : p ∈ S := hrest p (List.mem_cons_self p rest)
      have hpop : popWhile p [c, a] = [a] := by
        unfold popWhile
        rw [if_pos (le_of_eq (hS c hc p hp).symm)]
        exact popWhile_singleton p a
      show List.foldl _ (p :: popWhile p [c, a]) rest = _
      rw [hpop, List.getLastD_cons]
      exact chain_aux a S hS rest p hp (fun q hq => hrest q (List.mem_cons_of_mem p hq))

/-- `getLast?` of a nonempty list via `getLastD`. -/
theorem getLast?_eq_getLastD (c : Point) (rest : List Point) :
    (c :: rest).getLast? = some (rest.getLastD c) := by
  induction rest generalizing c with
  | nil => rfl
  | cons b t ih =>
      rw [List.getLast?_cons_cons, ih, List.getLastD_cons]

/-- The chain of a mutually collinear list of length at least two is
`[last, first]`. -/
theorem buildChain_collinear (S : List Point) (h2 : 2 ≤ S.length)
    (hcol : ∀ x ∈ S, ∀ y ∈ S, ∀ z ∈ S, cross x y z = 0) :
    buildChain S = [(S.getLast?).getD ⟨0, 0⟩, (S.head?).getD ⟨0, 0⟩] := by
  match S, h2 with
  | a :: c :: rest, _ =>
      unfold buildChain
      rw [List.foldl_cons, List.foldl_cons]
      show List.foldl _ (c :: popWhile c [a]) rest = _
      rw [popWhile_singleton]
      rw [chain_aux a (a :: c :: rest)
        (fun x hx y hy => hcol a (List.mem_cons_self a _) x hx y hy) rest c
        (List.mem_cons_of_mem a (List.mem_cons_self c rest))
        (fun p hp => List.mem_cons_of_mem a (List.mem_cons_of_mem c hp))]
      rw [List.getLast?_cons_cons, getLast?_eq_getLastD]
      rfl

/-- `getLast?.getD` agrees with `getLastD`. -/
theorem getD_getLast? (t : List Point) (d : Point) :
    t.getLast?.getD d = t.getLastD d := by
  rcases t with _ | ⟨b, t2⟩
  · rfl
  · rw [getLast?_eq_getLastD, List.getLastD_cons]
    rfl

/-- `getLastD` picks a member (or the default). -/
theorem getLastD_mem (l : List Point) (d : Point) : l.getLastD d ∈ d :: l := by
  induction l generalizing d with
  | nil => simp
  | cons a t ih =>
      rw [List.getLastD_cons]
      exact List.mem_cons_of_mem d (ih a)

/-- In a sorted list the head is a lower bound. -/
theorem sorted_head_lexLe (a : Point) (t : List Point)
    (hs : List.Sorted lexLe (a :: t)) : ∀ z ∈ a :: t, lexLe a z := by
  intro z hz
  rcases List.mem_cons.mp hz with rfl | hz
  · exact lexLe_refl z
  · exact List.rel_of_sorted_cons hs z hz

/-- In a sorted list the last element is an upper bound. -/
theorem sorted_lexLe_getLastD (t : List Point) :
    ∀ a : Point, List.Sorted lexLe (a :: t) →
      ∀ z ∈ a :: t, lexLe z (t.getLastD a) := by
  induction t with
  | nil =>
      intro a _ z hz
      simp at hz
      subst hz
      exact lexLe_refl z
  | cons b t2 ih =>
      intro a hs z hz
      rw [List.getLastD_cons]
      rcases List.mem_cons.mp hz with rfl | hz
      · exact List.rel_of_sorted_cons hs _ (getLastD_mem t2 b)
      · exact ih b hs.of_cons z hz

/-- `lexLe` is antisymmetric. -/
theorem lexLe_antisymm (x y : Point) (h1 : lexLe x y) (h2 : lexLe y x) : x = y :=
  antisymm h1 h2

/-- C7: degenerate hull inputs: a single point hulls to itself; a
nonempty input whose points all coincide hulls to that single point as a
1-point result; a mutually collinear input with at least two distinct
points hulls to exactly its two lexicographic extreme points. -/
theorem C7_degenerate_hulls :
    (∀ p : Point, getHull [p] = [p]) ∧
    (∀ (l : List Point) (p : Point), l ≠ [] → (∀ z ∈ l, z = p) → getHull l = [p]) ∧
    (∀ l : List Point, CollinearPts l → (∃ x ∈ l, ∃ y ∈ l, x ≠ y) →
      ∃ pmin pmax, getHull l = [pmin, pmax] ∧ pmin ∈ l ∧ pmax ∈ l ∧ pmin ≠ pmax ∧
        ∀ z ∈ l, lexLe pmin z ∧ lexLe z pmax) := by
  refine ⟨?_, ?_, ?_⟩
  · intro p
    rfl
  · intro l p hne hall
    have hlen : (sortPoints l).length = l.length := (sortPoints_perm l).length_eq
    have hrep : sortPoints l = List.replicate l.length p := by
      rw [← hlen]
      exact List.eq_replicate_length.mpr
        (fun b hb => hall b ((sortPoints_perm l).mem_iff.mp hb))
    have h1 : 1 ≤ l.length := by
      rcases l with _ | ⟨w, t⟩
      · exact absurd rfl hne
      · simp
    unfold getHull
    rw [hrep]
    exact getHullPresorted_replicate p l.length h1
  · intro l hcol hne
    obtain ⟨x, hx, y, hy, hxy⟩ := hne
    have hperm := sortPoints_perm l
    have hsorted := sortPoints_sorted l
    have hlenS : (sortPoints l).length = l.length := hperm.length_eq
    have hlen2 : 2 ≤ l.length := by
      rcases l with _ | ⟨w, _ | ⟨w2, t⟩⟩
      · simp at hx
      · simp at hx hy
        subst hx; subst hy
        exact absurd rfl hxy
      · simp
    obtain ⟨s0, s1, rest, hS⟩ :
        ∃ s0 s1 rest, sortPoints l = s0 :: s1 :: rest := by
      rcases hq : sortPoints l with _ | ⟨a0, _ | ⟨a1, arest⟩⟩
      · rw [hq] at hlenS; simp at hlenS; omega
      · rw [hq] at hlenS; simp at hlenS; omega
      · exact ⟨a0, a1, arest, rfl⟩
    rw [hS] at hperm hsorted
    have hcolS : ∀ a ∈ s0 :: s1 :: rest, ∀ b ∈ s0 :: s1 :: rest,
        ∀ c ∈ s0 :: s1 :: rest, cross a b c = 0 := by
      intro a ha b hb c hc
      exact hcol a (hperm.mem_iff.mp ha) b (hperm.mem_iff.mp hb)
        c (hperm.mem_iff.mp hc)
    have hlastq : (s0 :: s1 :: rest).getLast? = some (rest.getLastD s1) := by
      rw [List.getLast?_cons_cons, getLast?_eq_getLastD]
    have hup : buildChain (s0 :: s1 :: rest) = [rest.getLastD s1, s0] := by
      have h := buildChain_collinear (s0 :: s1 :: rest) (by simp) hcolS
      rw [hlastq] at h
      simpa using h
    have hcolR : ∀ a ∈ (s0 :: s1 :: rest).reverse, ∀ b ∈ (s0 :: s1 :: rest).reverse,
        ∀ c ∈ (s0 :: s1 :: rest).reverse, cross a b c = 0 := by
      intro a ha b hb c hc
      rw [List.mem_reverse] at ha hb hc
      exact hcolS a ha b hb c hc
    have hlow : buildChain (s0 :: s1 :: rest).reverse = [s0, rest.getLastD s1] := by
      have h := buildChain_collinear (s0 :: s1 :: rest).reverse
        (by simp) hcolR
      rw [List.getLast?_reverse, List.head?_reverse, hlastq] at h
      simpa using h
    have hbound : ∀ z ∈ s0 :: s1 :: rest, lexLe s0 z ∧ lexLe z (rest.getLastD s1) := by
      intro z hz
      refine ⟨sorted_head_lexLe s0 (s1 :: rest) hsorted z hz, ?_⟩
      have h := sorted_lexLe_getLastD (s1 :: rest) s0 hsorted z hz
      rwa [List.getLastD_cons] at h
    have hne0m : s0 ≠ rest.getLastD s1 := by
      intro heq
      have hx1 := hbound x (hperm.mem_iff.mpr hx)
      have hy1 := hbound y (hperm.mem_iff.mpr hy)
      have hxs : x = s0 := lexLe_antisymm x s0 (heq ▸ hx1.2) hx1.1
      have hys : y = s0 := lexLe_antisymm y s0 (heq ▸ hy1.2) hy1.1
      rw [hxs, hys] at hxy
      exact hxy rfl
    refine ⟨s0, rest.getLastD s1, ?_, hperm.mem_iff.mp (List.mem_cons_self s0 _),
      hperm.mem_iff.mp (List.mem_cons_of_mem s0 (getLastD_mem rest s1)), hne0m, ?_⟩
    · unfold getHull
      rw [hS]
      unfold getHullPresorted
      rw [if_neg (by simp)]
      simp only [hup, hlow]
      have hne0m2 : ¬ s0 = rest.getLast?.getD s1 := by
        rw [getD_getLast?]
        exact hne0m
      simp [hne0m2]
    · intro z hz
      exact hbound z (hperm.mem_iff.mpr hz)

/-- Witness for C7: a constant three-point list hulls to the point, and a
concrete collinear list hulls to its two extremes. -/
theorem C7_degenerate_hulls_witness :
    ([⟨1, 1⟩, ⟨1, 1⟩, ⟨1, 1⟩] : List Point) ≠ [] ∧
    (∀ z ∈ ([⟨1, 1⟩, ⟨1, 1⟩, ⟨1, 1⟩] : List Point), z = ⟨1, 1⟩) ∧
    getHull [⟨1, 1⟩, ⟨1, 1⟩, ⟨1, 1⟩] = [⟨1, 1⟩] ∧
    CollinearPts [⟨0, 0⟩, ⟨2, 2⟩, ⟨1, 1⟩] ∧
    (∃ pmin pmax, getHull [⟨0, 0⟩, ⟨2, 2⟩, ⟨1, 1⟩] = [pmin, pmax] ∧
      pmin ∈ [(⟨0, 0⟩ : Point), ⟨2, 2⟩, ⟨1, 1⟩] ∧
      pmax ∈ [(⟨0, 0⟩ : Point), ⟨2, 2⟩, ⟨1, 1⟩] ∧ pmin ≠ pmax ∧
      ∀ z ∈ [(⟨0, 0⟩ : Point), ⟨2, 2⟩, ⟨1, 1⟩], lexLe pmin z ∧ lexLe z pmax) :=
  ⟨by simp, by simp,
    C7_degenerate_hulls.2.1 [⟨1, 1⟩, ⟨1, 1⟩, ⟨1, 1⟩] ⟨1, 1⟩ (by simp) (by simp),
    by norm_num [CollinearPts, cross],
    C7_degenerate_hulls.2.2 [⟨0, 0⟩, ⟨2, 2⟩, ⟨1, 1⟩]
      (by norm_num [CollinearPts, cross])
      ⟨⟨0, 0⟩, by simp, ⟨2, 2⟩, by simp, by simp [Point.mk.injEq]⟩⟩

theorem lexLe_x {a b : Point} (h : lexLe a b) : a.x ≤ b.x := by
  rcases h with h | ⟨h, _⟩
  · exact le_of_lt h
  · exact le_of_eq h

theorem lexLe_y_of_eq_x {a b : Point} (h : lexLe a b) (hx : a.x = b.x) :
    a.y ≤ b.y := by
  rcases h with h | ⟨_, hy⟩
  · exact absurd hx (ne_of_lt h)
  · exact hy

theorem lexLe_refl2 (a : Point) : lexLe a a := Or.inr ⟨rfl, le_refl _⟩

theorem lexLe_trans2 {a b c : Point} (h1 : lexLe a b) (h2 : lexLe b c) :
    lexLe a c := by
  rcases h1 with h | ⟨hx, hy⟩ <;> rcases h2 with h' | ⟨hx', hy'⟩
  · exact Or.inl (h.trans h')
  · exact Or.inl (hx' ▸ h)
  · exact Or.inl (hx ▸ h')
  · exact Or.inr ⟨hx.trans hx', hy.trans hy'⟩

theorem lexLe_antisymm2 {a b : Point} (h1 : lexLe a b) (h2 : lexLe b a) :
    a = b := by
  rcases h1 with h | ⟨hx, hy⟩ <;> rcases h2 with h' | ⟨hx', hy'⟩
  · exact absurd h' (not_lt.mpr h.le)
  · exact absurd h (not_lt.mpr hx'.le)
  · exact absurd h' (not_lt.mpr hx.le)
  · cases a; cases b; simp only [Point.mk.injEq]; exact ⟨hx, le_antisymm hy hy'⟩

/-- Transfer A: the pair `(r, q)` is replaced by `(r, p)` when `q` is
popped; points covered by the old pair stay covered. -/
theorem cov_transfer_A {r q p z : Point}
    (hcov : Cov r q z) (hpop : 0 ≤ cross r q p) (hqp : lexLe q p) :
    Cov r p z := by
  obtain ⟨hrz, hzq, hcr⟩ := hcov
  refine ⟨hrz, lexLe_trans2 hzq hqp, ?_⟩
  have hx1 : r.x ≤ z.x := lexLe_x hrz
  have hx2 : z.x ≤ q.x := lexLe_x hzq
  have hx3 : q.x ≤ p.x := lexLe_x hqp
  have key : cross r p z * (q.x - r.x)
      = cross r q z * (p.x - r.x) - cross r q p * (z.x - r.x) := by
    unfold cross; ring
  have h1 : cross r q z * (p.x - r.x) ≤ 0 :=
    mul_nonpos_iff.mpr (Or.inr ⟨hcr, by linarith⟩)
  have h2 : 0 ≤ cross r q p * (z.x - r.x) := mul_nonneg hpop (by linarith)
  have h3 : cross r p z * (q.x - r.x) ≤ 0 := by rw [key]; linarith
  rcases lt_or_eq_of_le (le_trans hx1 hx2) with hlt | heq
  · by_contra hpos
    push_neg at hpos
    nlinarith [mul_pos hpos (sub_pos.mpr hlt)]
  · -- r.x = q.x, hence z.x = r.x
    have hzx : z.x = r.x := le_antisymm (heq ▸ hx2) hx1
    have hrq : lexLe r q := lexLe_trans2 hrz hzq
    have hry : r.y ≤ q.y := lexLe_y_of_eq_x hrq heq
    rcases lt_or_eq_of_le hry with hylt | hyeq
    · -- vertical pair with q strictly above r: pop forces p.x = r.x
      have hc : cross r q p = -((q.y - r.y) * (p.x - r.x)) := by
        unfold cross
        rw [← heq]
        ring
      have hpx : p.x = r.x := by nlinarith
      have : cross r p z = 0 := by
        unfold cross
        rw [hpx, hzx]
        ring
      linarith
    · -- r = q, so z = r
      have hrq2 : r = q := by
        cases r; cases q
        simp only [Point.mk.injEq]
        exact ⟨heq, hyeq⟩
      have hzr : z = r := lexLe_antisymm2 (hrq2 ▸ hzq) hrz
      have : cross r p z = 0 := by
        rw [hzr]; unfold cross; ring
      linarith


/-- Transfer B: points covered by the virtual top pair `(q, p)` stay
covered by `(r, p)` when `q` is popped. -/
theorem cov_transfer_B {r q p z : Point}
    (hcov : Cov q p z) (hpop : 0 ≤ cross r q p) (hrq : lexLe r q) :
    Cov r p z := by
  obtain ⟨hqz, hzp, hcr⟩ := hcov
  refine ⟨lexLe_trans2 hrq hqz, hzp, ?_⟩
  have hx1 : q.x ≤ z.x := lexLe_x hqz
  have hx2 : z.x ≤ p.x := lexLe_x hzp
  have hx3 : r.x ≤ q.x := lexLe_x hrq
  have key : cross p r z * (q.x - p.x)
      = cross p q z * (r.x - p.x) + cross p r q * (z.x - p.x) := by
    unfold cross; ring
  have hpq : cross p q z = -(cross q p z) := by unfold cross; ring
  have hcyc : cross p r q = cross r q p := by unfold cross; ring
  have h1 : cross p q z * (r.x - p.x) ≤ 0 :=
    mul_nonpos_iff.mpr (Or.inl ⟨by rw [hpq]; linarith, by linarith⟩)
  have h2 : cross p r q * (z.x - p.x) ≤ 0 :=
    mul_nonpos_iff.mpr (Or.inl ⟨by rw [hcyc]; linarith, by linarith⟩)
  have h3 : cross p r z * (q.x - p.x) ≤ 0 := by rw [key]; linarith
  have hflip : cross r p z = -(cross p r z) := by unfold cross; ring
  rcases lt_or_eq_of_le (le_trans hx1 hx2) with hlt | heq
  · rw [hflip]
    by_contra hpos
    push_neg at hpos
    nlinarith [mul_pos (neg_pos.mpr (by linarith : cross p r z < 0)) (sub_pos.mpr hlt)]
  · -- q.x = p.x, hence z.x = p.x
    have hzx : z.x = p.x := le_antisymm hx2 (heq ▸ hx1)
    have hzy : z.y ≤ p.y := lexLe_y_of_eq_x hzp hzx
    have hval : cross r p z = (p.x - r.x) * (z.y - p.y) := by
      unfold cross
      rw [hzx]
      ring
    rw [hval]
    exact mul_nonpos_iff.mpr (Or.inl ⟨by linarith, by linarith⟩)

/-- Transfer C (descent step): a point below pair `(b, a)` and to the
right of `b` is below the next-lower pair `(t, b)`. -/
theorem below_transfer_C {t b a z : Point}
    (hz : cross b a z ≤ 0) (hturn : cross t b a < 0)
    (htb : lexLe t b) (hba : lexLe b a) (hbz : b.x ≤ z.x) :
    cross t b z ≤ 0 := by
  have hx1 : t.x ≤ b.x := lexLe_x htb
  have hx2 : b.x ≤ a.x := lexLe_x hba
  have key : cross b t z * (a.x - b.x)
      = cross b a z * (t.x - b.x) + cross b t a * (z.x - b.x) := by
    unfold cross; ring
  have hneg : cross b t a = -(cross t b a) := by unfold cross; ring
  have h1 : 0 ≤ cross b a z * (t.x - b.x) :=
    mul_nonneg_iff.mpr (Or.inr ⟨hz, by linarith⟩)
  have h2 : 0 ≤ cross b t a * (z.x - b.x) :=
    mul_nonneg (by rw [hneg]; linarith) (by linarith)
  have h3 : 0 ≤ cross b t z * (a.x - b.x) := by rw [key]; linarith
  have hflip : cross t b z = -(cross b t z) := by unfold cross; ring
  rcases lt_or_eq_of_le hx2 with hlt | heq
  · rw [hflip]
    by_contra hpos
    push_neg at hpos
    nlinarith [mul_pos (by linarith : 0 < -(cross b t z)) (sub_pos.mpr hlt)]
  · -- a.x = b.x: contradicts the strict turn
    exfalso
    have hay : b.y ≤ a.y := lexLe_y_of_eq_x hba heq
    have : cross t b a = (b.x - t.x) * (a.y - b.y) := by
      unfold cross
      rw [← heq]
      ring
    nlinarith [mul_nonneg (by linarith : (0:ℚ) ≤ b.x - t.x) (by linarith : (0:ℚ) ≤ a.y - b.y)]

/-- Transfer D (upward step): a point below pair `(t, b)` and lexically
at most `b` is below the next-upper pair `(b, a)`. -/
theorem below_transfer_D {t b a z : Point}
    (hz : cross t b z ≤ 0) (hturn : cross t b a < 0)
    (htb : lexLe t b) (hba : lexLe b a) (hzb : lexLe z b) :
    cross b a z ≤ 0 := by
  have hx1 : t.x ≤ b.x := lexLe_x htb
  have hx2 : b.x ≤ a.x := lexLe_x hba
  have hx3 : z.x ≤ b.x := lexLe_x hzb
  have key : cross b a z * (t.x - b.x)
      = cross b t z * (a.x - b.x) - cross b t a * (z.x - b.x) := by
    unfold cross; ring
  have hneg1 : cross b t z = -(cross t b z) := by unfold cross; ring
  have hneg2 : cross b t a = -(cross t b a) := by unfold cross; ring
  have h1 : 0 ≤ cross b t z * (a.x - b.x) :=
    mul_nonneg (by rw [hneg1]; linarith) (by linarith)
  have h2 : cross b t a * (z.x - b.x) ≤ 0 :=
    mul_nonpos_iff.mpr (Or.inl ⟨by rw [hneg2]; linarith, by linarith⟩)
  have h3 : 0 ≤ cross b a z * (t.x - b.x) := by rw [key]; linarith
  rcases lt_or_eq_of_le hx1 with hlt | heq
  · by_contra hpos
    push_neg at hpos
    nlinarith [mul_pos hpos (by linarith : (0:ℚ) < b.x - t.x)]
  · -- t.x = b.x: vertical bottom pair
    have hby : t.y ≤ b.y := lexLe_y_of_eq_x htb heq
    have hturn2 : cross t b a = -((b.y - t.y) * (a.x - t.x)) := by
      unfold cross
      rw [← heq]
      ring
    have hprod : 0 < (b.y - t.y) * (a.x - t.x) := by
      nlinarith
    have hby2 : t.y < b.y := by nlinarith [mul_nonneg (by linarith : (0:ℚ) ≤ b.y - t.y) (by linarith : (0:ℚ) ≤ a.x - t.x)]
    have hzc : cross t b z = -((b.y - t.y) * (z.x - t.x)) := by
      unfold cross
      rw [← heq]
      ring
    have hzx2 : t.x ≤ z.x := by nlinarith
    have hzx3 : z.x = b.x := le_antisymm hx3 (heq ▸ hzx2)
    have hzy : z.y ≤ b.y := lexLe_y_of_eq_x hzb hzx3
    have hval : cross b a z = (a.x - b.x) * (z.y - b.y) := by
      unfold cross
      rw [hzx3]
      ring
    rw [hval]
    exact mul_nonpos_iff.mpr (Or.inl ⟨by linarith, by linarith⟩)








theorem turns_tail {x : Point} {l : List Point} (h : Turns (x :: l)) :
    Turns l := by
  match l, h with
  | [], _ => trivial
  | [a], _ => trivial
  | a :: b :: t, h => exact h.2

theorem popWhile_ne_nil (p : Point) :
    ∀ h : List Point, h ≠ [] → popWhile p h ≠ []
  | [q], _ => by simp [popWhile]
  | q :: r :: t, _ => by
      unfold popWhile
      split
      · exact popWhile_ne_nil p (r :: t) (by simp)
      · simp

theorem popWhile_suffix (p : Point) :
    ∀ h : List Point, (popWhile p h).IsSuffix h
  | [] => List.suffix_rfl
  | [q] => List.suffix_rfl
  | q :: r :: t => by
      unfold popWhile
      split
      · exact (popWhile_suffix p (r :: t)).trans (List.suffix_cons q (r :: t))
      · exact List.suffix_rfl

theorem popWhile_turns (p : Point) :
    ∀ h : List Point, Turns h → Turns (p :: popWhile p h)
  | [], _ => trivial
  | [q], _ => trivial
  | q :: r :: t, ht => by
      unfold popWhile
      split
      case isTrue hpop => exact popWhile_turns p (r :: t) (turns_tail ht)
      case isFalse hpop =>
        exact ⟨lt_of_not_ge hpop, ht⟩

theorem popWhile_cov (p : Point) :
    ∀ (h : List Point) (z : Point),
      List.Pairwise lexGe h → (∀ c ∈ h, lexLe c p) →
      CovChain (p :: h) z → CovChain (p :: popWhile p h) z
  | [], z, _, _, hc => by simpa [popWhile] using hc
  | [a], z, _, _, hc => by simpa [popWhile] using hc
  | q :: r :: t, z, hsort, hp, hc => by
      unfold popWhile
      split
      case isTrue hpop =>
        apply popWhile_cov p (r :: t) z (List.Pairwise.sublist (List.sublist_cons_self q (r :: t)) hsort)
          (fun c hc2 => hp c (List.mem_cons_of_mem q hc2))
        simp only [CovChain] at hc ⊢
        have hrq : lexLe r q := (List.pairwise_cons.mp hsort).1 r (List.mem_cons_self r t)
        have hqp : lexLe q p := hp q (List.mem_cons_self q (r :: t))
        rcases hc with h1 | h2 | h3
        · exact Or.inl (cov_transfer_B h1 hpop hrq)
        · exact Or.inl (cov_transfer_A h2 hpop hqp)
        · exact Or.inr h3
      case isFalse => exact hc


theorem cov_extend {h : List Point} (p z : Point) (hne : h ≠ [])
    (hc : CovChain h z) : CovChain (p :: h) z := by
  match h, hc with
  | w :: t, hc => exact Or.inr hc

theorem cov_top {w p : Point} (t : List Point) (hwp : lexLe w p) :
    CovChain (p :: w :: t) p :=
  Or.inl ⟨hwp, lexLe_refl2 p, by unfold cross; ring_nf; exact le_refl 0⟩


theorem getLast?_cons_of_ne_nil {l : List Point} (p : Point) (h : l ≠ []) :
    (p :: l).getLast? = l.getLast? := by
  match l with
  | a :: t => exact List.getLast?_cons_cons

theorem suffix_getLast? {l s : List Point} (hs : s.IsSuffix l) (hne : s ≠ []) :
    s.getLast? = l.getLast? := by
  obtain ⟨pre, rfl⟩ := hs
  rw [List.getLast?_append_of_ne_nil pre hne]

theorem scan_step {done h : List Point} (p : Point) (hinv : ChainInv done h)
    (hdp : ∀ c ∈ done, lexLe c p) :
    ChainInv (done ++ [p]) (p :: popWhile p h) := by
  obtain ⟨hne, hsorth, hmem, hturns, hhead, hlast, hcov⟩ := hinv
  have hsub : ∀ c ∈ popWhile p h, c ∈ h := fun c hc =>
    (popWhile_suffix p h).sublist.subset hc
  have hhp : ∀ c ∈ h, lexLe c p := fun c hc => hdp c (hmem c hc)
  have hpne : popWhile p h ≠ [] := popWhile_ne_nil p h hne
  have hdone_ne : done ≠ [] := by
    match h, hne with
    | c :: t, _ =>
        intro hd
        exact absurd (hmem c (List.mem_cons_self c t)) (by simp [hd])
  refine ⟨by simp, ?_, ?_, popWhile_turns p h hturns, ?_, ?_, ?_⟩
  · rw [List.pairwise_cons]
    exact ⟨fun y hy => hhp y (hsub y hy),
      List.Pairwise.sublist (popWhile_suffix p h).sublist hsorth⟩
  · intro c hc
    rcases List.mem_cons.mp hc with rfl | hc
    · exact List.mem_append_right done (List.mem_cons_self c [])
    · exact List.mem_append_left [p] (hmem c (hsub c hc))
  · simp
  · rw [getLast?_cons_of_ne_nil p hpne, suffix_getLast? (popWhile_suffix p h) hpne,
      hlast]
    match done, hdone_ne with
    | d :: t, _ => simp
  · intro z hz
    rcases List.mem_append.mp hz with hz | hz
    · exact popWhile_cov p h z hsorth hhp (cov_extend p z hne (hcov z hz))
    · have hzp : z = p := by simpa using hz
      rw [hzp]
      rcases hw : popWhile p h with _ | ⟨w, t⟩
      · exact absurd hw hpne
      · exact cov_top t
          (hhp w (hsub w (by rw [hw]; exact List.mem_cons_self w t)))

theorem scan_inv :
    ∀ (todo done h : List Point),
      List.Pairwise lexLe (done ++ todo) → ChainInv done h →
      ChainInv (done ++ todo)
        (List.foldl (fun hull p => p :: popWhile p hull) h todo)
  | [], done, h, _, hinv => by simpa using hinv
  | p :: todo, done, h, hsorted, hinv => by
      have hdp : ∀ c ∈ done, lexLe c p := by
        intro c hc
        exact (List.pairwise_append.mp hsorted).2.2 c hc p (List.mem_cons_self p todo)
      have step := scan_step p hinv hdp
      have hsorted2 : List.Pairwise lexLe ((done ++ [p]) ++ todo) := by
        simpa [List.append_assoc] using hsorted
      have ih := scan_inv todo (done ++ [p]) (p :: popWhile p h) hsorted2 step
      simpa [List.append_assoc] using ih

theorem buildChain_inv (S : List Point) (hne : S ≠ [])
    (hsorted : List.Pairwise lexLe S) : ChainInv S (buildChain S) := by
  match S, hne with
  | p0 :: rest, _ =>
      have init : ChainInv [p0] [p0] := by
        refine ⟨by simp, by simp, by simp, trivial, rfl, rfl, ?_⟩
        intro z hz
        have : z = p0 := by simpa using hz
        subst this
        rfl
      have := scan_inv rest [p0] [p0] (by simpa using hsorted) init
      simpa [buildChain, popWhile] using this



theorem below_descent :
    ∀ (h : List Point) (z : Point), List.Pairwise lexGe h → Turns h →
      (∀ c ∈ h, lexLe c z) → TopBelow h z → PairsBelow h z
  | [], _, _, _, _, _ => trivial
  | [a], _, _, _, _, _ => trivial
  | [a, b], z, _, _, _, htop => ⟨htop, trivial⟩
  | a :: b :: c :: t, z, hsort, hturns, hz, htop => by
      refine ⟨htop, ?_⟩
      have hcb : lexLe c b := (List.pairwise_cons.mp
        (List.pairwise_cons.mp hsort).2).1 c (List.mem_cons_self c t)
      have hba : lexLe b a := (List.pairwise_cons.mp hsort).1 b
        (List.mem_cons_self b (c :: t))
      have hnext : cross c b z ≤ 0 :=
        below_transfer_C htop hturns.1 hcb hba
          (lexLe_x (hz b (List.mem_cons_of_mem a (List.mem_cons_self b (c :: t)))))
      exact below_descent (b :: c :: t) z
        (List.Pairwise.sublist (List.sublist_cons_self a _) hsort)
        (turns_tail hturns)
        (fun w hw => hz w (List.mem_cons_of_mem a hw))
        hnext

theorem cov_le_head :
    ∀ (t : List Point) (a z : Point), List.Pairwise lexGe (a :: t) →
      CovChain (a :: t) z → lexLe z a
  | [], a, z, _, hc => by
      have : z = a := hc
      rw [this]
      exact lexLe_refl2 a
  | b :: t, a, z, hsort, hc => by
      rcases hc with hcov | hrest
      · exact hcov.2.1
      · have hza : lexLe z b := cov_le_head t b z
          (List.Pairwise.sublist (List.sublist_cons_self a _) hsort) hrest
        exact lexLe_trans2 hza
          ((List.pairwise_cons.mp hsort).1 b (List.mem_cons_self b t))

theorem cov_upgrade :
    ∀ (h : List Point) (z : Point), List.Pairwise lexGe h → Turns h →
      CovChain h z → PairsBelow h z
  | [], _, _, _, hc => absurd hc (by simp [CovChain])
  | [a], _, _, _, _ => trivial
  | a :: b :: t, z, hsort, hturns, hc => by
      have hba : lexLe b a := (List.pairwise_cons.mp hsort).1 b
        (List.mem_cons_self b t)
      have hsort2 : List.Pairwise lexGe (b :: t) :=
        List.Pairwise.sublist (List.sublist_cons_self a _) hsort
      rcases hc with hcov | hrest
      · refine ⟨hcov.2.2, ?_⟩
        have hmem_le : ∀ c ∈ b :: t, lexLe c z := by
          intro c hcmem
          rcases List.mem_cons.mp hcmem with rfl | hcmem
          · exact hcov.1
          · exact lexLe_trans2
              ((List.pairwise_cons.mp hsort2).1 c hcmem) hcov.1
        apply below_descent (b :: t) z hsort2 (turns_tail hturns) hmem_le
        rcases t with _ | ⟨t0, t2⟩
        · trivial
        · exact below_transfer_C hcov.2.2 hturns.1
            ((List.pairwise_cons.mp hsort2).1 t0 (List.mem_cons_self t0 t2)) hba
            (lexLe_x hcov.1)
      · have IH := cov_upgrade (b :: t) z hsort2 (turns_tail hturns) hrest
        refine ⟨?_, IH⟩
        rcases t with _ | ⟨t0, t2⟩
        · have hzb : z = b := hrest
          rw [hzb]
          have : cross b a b = 0 := by unfold cross; ring
          linarith
        · have hzb : lexLe z b := cov_le_head (t0 :: t2) b z hsort2 hrest
          exact below_transfer_D IH.1 hturns.1
            ((List.pairwise_cons.mp hsort2).1 t0 (List.mem_cons_self t0 t2)) hba hzb



theorem mem_segment_param (P Q Z : ℚ × ℚ) (u : ℚ) (h0 : 0 ≤ u) (h1 : u ≤ 1)
    (hx : Z.1 = (1 - u) * P.1 + u * Q.1) (hy : Z.2 = (1 - u) * P.2 + u * Q.2) :
    Z ∈ segment ℚ P Q := by
  refine ⟨1 - u, u, by linarith, h0, by ring, ?_⟩
  have : ((1 - u) • P + u • Q).1 = Z.1 := by
    simp [Prod.fst_add, Prod.smul_fst, smul_eq_mul, hx]
  have h2 : ((1 - u) • P + u • Q).2 = Z.2 := by
    simp [Prod.snd_add, Prod.smul_snd, smul_eq_mul, hy]
  exact Prod.ext this h2

theorem mem_segment_vertical (P Q Z : ℚ × ℚ) (hx1 : P.1 = Z.1) (hx2 : Q.1 = Z.1)
    (hy1 : P.2 ≤ Z.2) (hy2 : Z.2 ≤ Q.2) : Z ∈ segment ℚ P Q := by
  rcases eq_or_lt_of_le (le_trans hy1 hy2) with heq | hlt
  · have hz : Z = P := by
      apply Prod.ext hx1.symm
      have : P.2 = Z.2 := le_antisymm hy1 (by rw [← heq] at hy2; exact hy2)
      exact this.symm
    rw [hz]
    exact left_mem_segment ℚ P Q
  · have hne : Q.2 - P.2 ≠ 0 := ne_of_gt (by linarith)
    apply mem_segment_param P Q Z ((Z.2 - P.2) / (Q.2 - P.2))
      (div_nonneg (by linarith) (by linarith))
      (by rw [div_le_one (by linarith)]; linarith)
    · rw [hx1, hx2]; ring
    · field_simp
      ring

theorem interp_x (ax bx zx : ℚ) (h1 : bx - ax ≠ 0) :
    (1 - (zx - ax) / (bx - ax)) * ax + ((zx - ax) / (bx - ax)) * bx = zx := by
  field_simp
  ring

theorem interp_above (ax ay bx bb zx zy : ℚ) (h1 : 0 < bx - ax)
    (hcr : (bx - ax) * (zy - ay) - (bb - ay) * (zx - ax) ≤ 0) :
    zy ≤ (1 - (zx - ax) / (bx - ax)) * ay + ((zx - ax) / (bx - ax)) * bb := by
  have hne : bx - ax ≠ 0 := ne_of_gt h1
  have key : (1 - (zx - ax) / (bx - ax)) * ay + ((zx - ax) / (bx - ax)) * bb - zy
      = (-((bx - ax) * (zy - ay) - (bb - ay) * (zx - ax))) / (bx - ax) := by
    field_simp
    ring
  have h2 : 0 ≤ (-((bx - ax) * (zy - ay) - (bb - ay) * (zx - ax))) / (bx - ax) :=
    div_nonneg (by linarith) (by linarith)
  linarith [key ▸ h2]

theorem interp_below (ax ay bx bb zx zy : ℚ) (h1 : 0 < bx - ax)
    (hcr : 0 ≤ (bx - ax) * (zy - ay) - (bb - ay) * (zx - ax)) :
    (1 - (zx - ax) / (bx - ax)) * ay + ((zx - ax) / (bx - ax)) * bb ≤ zy := by
  have hne : bx - ax ≠ 0 := ne_of_gt h1
  have key : zy - ((1 - (zx - ax) / (bx - ax)) * ay + ((zx - ax) / (bx - ax)) * bb)
      = ((bx - ax) * (zy - ay) - (bb - ay) * (zx - ax)) / (bx - ax) := by
    field_simp
    ring
  have h2 : 0 ≤ ((bx - ax) * (zy - ay) - (bb - ay) * (zx - ax)) / (bx - ax) :=
    div_nonneg (by linarith) (by linarith)
  linarith [key ▸ h2]

/-- The segment-sandwich step: a point lexically between the endpoints of
an upper pair and of a lower pair, below the upper cross and above the
lower cross, is in the convex hull of the four endpoints. -/
theorem quad_mem (s : Set (ℚ × ℚ)) (a b c d z : Point)
    (ha : toPair a ∈ s) (hb : toPair b ∈ s) (hc : toPair c ∈ s)
    (hd : toPair d ∈ s) (hup : Cov a b z)
    (hl1 : lexLe d z) (hl2 : lexLe z c) (hlc : cross c d z ≤ 0) :
    toPair z ∈ convexHull ℚ s := by
  obtain ⟨haz, hzb, hcab⟩ := hup
  have hax : a.x ≤ z.x := lexLe_x haz
  have hzbx : z.x ≤ b.x := lexLe_x hzb
  have hdx : d.x ≤ z.x := lexLe_x hl1
  have hzcx : z.x ≤ c.x := lexLe_x hl2
  have hlow : 0 ≤ (c.x - d.x) * (z.y - d.y) - (c.y - d.y) * (z.x - d.x) := by
    have hdc : cross d c z = -(cross c d z) := by unfold cross; ring
    have : cross d c z = (c.x - d.x) * (z.y - d.y) - (c.y - d.y) * (z.x - d.x) := rfl
    rw [← this, hdc]
    linarith
  rcases eq_or_lt_of_le (le_trans hax hzbx) with hab | hab
  · -- vertical upper pair: z on segment a-b
    have hzx : z.x = a.x := le_antisymm (hab ▸ hzbx) hax
    apply segment_subset_convexHull ha hb
    exact mem_segment_vertical (toPair a) (toPair b) (toPair z)
      hzx.symm (hzx.trans hab).symm
      (lexLe_y_of_eq_x haz hzx.symm)
      (lexLe_y_of_eq_x hzb (hzx.trans hab))
  rcases eq_or_lt_of_le (le_trans hdx hzcx) with hdc | hdc
  · -- vertical lower pair: z on segment d-c
    have hzx : z.x = d.x := le_antisymm (hdc ▸ hzcx) hdx
    apply segment_subset_convexHull hd hc
    exact mem_segment_vertical (toPair d) (toPair c) (toPair z)
      hzx.symm (hzx.trans hdc).symm
      (lexLe_y_of_eq_x hl1 hzx.symm)
      (lexLe_y_of_eq_x hl2 (hzx.trans hdc))
  · -- main case: both pairs have positive x-extent
    set t := (z.x - a.x) / (b.x - a.x) with ht
    set A : ℚ × ℚ := ((1 - t) * a.x + t * b.x, (1 - t) * a.y + t * b.y) with hA
    set u := (z.x - d.x) / (c.x - d.x) with hu
    set B : ℚ × ℚ := ((1 - u) * d.x + u * c.x, (1 - u) * d.y + u * c.y) with hB
    have ht0 : 0 ≤ t := div_nonneg (by linarith) (by linarith)
    have ht1 : t ≤ 1 := by rw [ht, div_le_one (by linarith)]; linarith
    have hu0 : 0 ≤ u := div_nonneg (by linarith) (by linarith)
    have hu1 : u ≤ 1 := by rw [hu, div_le_one (by linarith)]; linarith
    have hAseg : A ∈ segment ℚ (toPair a) (toPair b) :=
      mem_segment_param _ _ _ t ht0 ht1 rfl rfl
    have hBseg : B ∈ segment ℚ (toPair d) (toPair c) :=
      mem_segment_param _ _ _ u hu0 hu1 rfl rfl
    have hAx : A.1 = z.x := interp_x a.x b.x z.x (ne_of_gt (by linarith))
    have hBx : B.1 = z.x := interp_x d.x c.x z.x (ne_of_gt (by linarith))
    have hAy : z.y ≤ A.2 := interp_above a.x a.y b.x b.y z.x z.y (by linarith) hcab
    have hBy : B.2 ≤ z.y := interp_below d.x d.y c.x c.y z.x z.y (by linarith) hlow
    have hseg : toPair z ∈ segment ℚ B A :=
      mem_segment_vertical B A (toPair z) hBx hAx hBy hAy
    exact (convex_convexHull ℚ s).segment_subset
      (segment_subset_convexHull hd hc hBseg)
      (segment_subset_convexHull ha hb hAseg) hseg


theorem turns_getD (d : Point) :
    ∀ (h : List Point), Turns h → ∀ i, i + 2 < h.length →
      cross (h.getD (i + 2) d) (h.getD (i + 1) d) (h.getD i d) < 0
  | [], _, i, hlen => by simp at hlen
  | [a], _, i, hlen => by simp at hlen
  | [a, b], _, i, hlen => by simp at hlen
  | a :: b :: c :: t, ht, 0, _ => by simpa using ht.1
  | a :: b :: c :: t, ht, (i + 1), hlen => by
      have := turns_getD d (b :: c :: t) ht.2 i (by simpa using hlen)
      simpa using this

theorem getD_reverse (l : List Point) (i : ℕ) (h : i < l.length) (d : Point) :
    l.reverse.getD i d = l.getD (l.length - 1 - i) d := by
  rw [List.getD_eq_getElem?_getD, List.getD_eq_getElem?_getD,
    List.getElem?_reverse h]

theorem getD_tail (l : List Point) (i : ℕ) (d : Point) :
    l.tail.getD i d = l.getD (i + 1) d := by
  match l with
  | [] => rfl
  | a :: t => rfl


theorem pointNeg_invol (p : Point) : pointNeg (pointNeg p) = p := by
  cases p
  simp [pointNeg]

theorem map_pointNeg_invol (l : List Point) :
    (l.map pointNeg).map pointNeg = l := by
  rw [List.map_map]
  have : pointNeg ∘ pointNeg = id := by
    funext p
    exact pointNeg_invol p
  rw [this, List.map_id]

theorem lexLe_pointNeg {a b : Point} : lexLe (pointNeg a) (pointNeg b) ↔ lexLe b a := by
  unfold lexLe pointNeg
  constructor
  · rintro (h | ⟨hx, hy⟩)
    · exact Or.inl (by dsimp at h; linarith)
    · exact Or.inr ⟨by dsimp at hx; linarith, by dsimp at hy; linarith⟩
  · rintro (h | ⟨hx, hy⟩)
    · exact Or.inl (by dsimp; linarith)
    · exact Or.inr ⟨by dsimp; linarith, by dsimp; linarith⟩

theorem cross_pointNeg (r q p : Point) :
    cross (pointNeg r) (pointNeg q) (pointNeg p) = cross r q p := by
  unfold cross pointNeg
  dsimp
  ring

theorem popWhile_map_pointNeg (p : Point) :
    ∀ h : List Point,
      popWhile (pointNeg p) (h.map pointNeg) = (popWhile p h).map pointNeg
  | [] => rfl
  | [q] => rfl
  | q :: r :: t => by
      show popWhile (pointNeg p)
        (pointNeg q :: pointNeg r :: t.map pointNeg) = _
      unfold popWhile
      rw [cross_pointNeg]
      split
      · exact popWhile_map_pointNeg p (r :: t)
      · rfl

theorem buildChain_map_pointNeg (l : List Point) :
    buildChain (l.map pointNeg) = (buildChain l).map pointNeg := by
  unfold buildChain
  have : ∀ (todo h : List Point),
      List.foldl (fun hull p => p :: popWhile p hull) (h.map pointNeg)
          (todo.map pointNeg)
        = (List.foldl (fun hull p => p :: popWhile p hull) h todo).map pointNeg := by
    intro todo
    induction todo with
    | nil => intro h; rfl
    | cons p rest ih =>
        intro h
        show List.foldl _ (pointNeg p :: popWhile (pointNeg p) (h.map pointNeg)) _ = _
        rw [popWhile_map_pointNeg]
        exact ih (p :: popWhile p h)
  exact this l []


theorem pairsBelow_getD (d : Point) :
    ∀ (h : List Point) (z : Point), PairsBelow h z → ∀ i, i + 1 < h.length →
      cross (h.getD (i + 1) d) (h.getD i d) z ≤ 0
  | [], _, _, i, hlen => by simp at hlen
  | [a], _, _, i, hlen => by simp at hlen
  | a :: b :: t, z, hp, 0, _ => by simpa using hp.1
  | a :: b :: t, z, hp, (i + 1), hlen => by
      have := pairsBelow_getD d (b :: t) z hp.2 i (by simpa using hlen)
      simpa using this

theorem covchain_elim :
    ∀ (h : List Point) (z : Point), CovChain h z →
      (∃ pre post a b, h = pre ++ b :: a :: post ∧ Cov a b z) ∨
        h.getLast? = some z
  | [], z, hc => absurd hc (by simp [CovChain])
  | [a], z, hc => by
      right
      have : z = a := hc
      rw [this]
      rfl
  | b :: a :: t, z, hc => by
      rcases hc with hcov | hrest
      · exact Or.inl ⟨[], t, a, b, rfl, hcov⟩
      · rcases covchain_elim (a :: t) z hrest with ⟨pre, post, a2, b2, heq, hcov⟩ | hlast
        · exact Or.inl ⟨b :: pre, post, a2, b2, by rw [heq]; rfl, hcov⟩
        · exact Or.inr (by rw [getLast?_cons_of_ne_nil b (by simp)]; exact hlast)

/-- Sliver identity (x-weighted). -/
theorem sliver_ident_x (A M B z : Point) :
    (M.x - A.x) * cross M B z - (B.x - M.x) * cross A M z
      = (M.x - z.x) * cross A M B := by
  unfold cross
  ring

/-- Sliver identity (y-weighted). -/
theorem sliver_ident_y (A M B z : Point) :
    (M.y - A.y) * cross M B z - (B.y - M.y) * cross A M z
      = (M.y - z.y) * cross A M B := by
  unfold cross
  ring

/-- If the junction is degenerate (zero cross), every input point is on
the common supporting line. -/
theorem sliver_line (A M B : Point) (S : List Point)
    (h0 : cross A M B = 0) (hAM : lexLe A M) (hBM : lexLe B M)
    (hA : A ≠ M) (hB : B ≠ M)
    (hup : ∀ z ∈ S, cross A M z ≤ 0) (hlow : ∀ z ∈ S, cross M B z ≤ 0) :
    ∀ z ∈ S, cross A M z = 0 := by
  intro z hz
  have hux : A.x ≤ M.x := lexLe_x hAM
  have hbx : B.x ≤ M.x := lexLe_x hBM
  rcases lt_or_eq_of_le hux with hxlt | hxeq
  · -- A.x < M.x
    rcases lt_or_eq_of_le hbx with hbxlt | hbxeq
    · -- B.x < M.x: x-identity forces both crosses zero
      have hid := sliver_ident_x A M B z
      rw [h0, mul_zero] at hid
      have h1 : (M.x - A.x) * cross M B z ≤ 0 :=
        mul_nonpos_iff.mpr (Or.inl ⟨by linarith, hlow z hz⟩)
      have h2 : (B.x - M.x) * cross A M z ≥ 0 :=
        mul_nonneg_iff.mpr (Or.inr ⟨by linarith, hup z hz⟩)
      have h3 : (B.x - M.x) * cross A M z = 0 := by linarith
      have h4 : B.x - M.x ≠ 0 := by linarith
      exact (mul_eq_zero.mp h3).resolve_left h4
    · -- B.x = M.x: contradiction with B ≠ M
      exfalso
      have hby : B.y ≤ M.y := lexLe_y_of_eq_x hBM hbxeq
      have hc0 : cross A M B = (M.x - A.x) * (B.y - M.y) := by
        unfold cross
        rw [hbxeq]
        ring
      have : B.y = M.y := by nlinarith [hc0 ▸ h0]
      exact hB (by cases B; cases M; simp only [Point.mk.injEq]; exact ⟨hbxeq, this⟩)
  · -- A.x = M.x: A strictly below M on a vertical line
    have hay : A.y ≤ M.y := lexLe_y_of_eq_x hAM hxeq
    have haylt : A.y < M.y := by
      rcases lt_or_eq_of_le hay with h | h
      · exact h
      · exact absurd (by cases A; cases M; simp only [Point.mk.injEq]; exact ⟨hxeq, h⟩) hA
    rcases lt_or_eq_of_le hbx with hbxlt | hbxeq
    · -- B.x < M.x = A.x: contradiction with the zero cross
      exfalso
      have hc0 : cross A M B = -((M.y - A.y) * (B.x - A.x)) := by
        unfold cross
        rw [← hxeq]
        ring
      rw [hc0] at h0
      have : B.x - A.x < 0 := by rw [hxeq]; linarith
      nlinarith
    · -- B.x = M.x: all on the vertical line; y-identity
      have hby : B.y ≤ M.y := lexLe_y_of_eq_x hBM hbxeq
      have hbylt : B.y < M.y := by
        rcases lt_or_eq_of_le hby with h | h
        · exact h
        · exact absurd (by cases B; cases M; simp only [Point.mk.injEq]; exact ⟨hbxeq, h⟩) hB
      have hid := sliver_ident_y A M B z
      rw [h0, mul_zero] at hid
      have h1 : (M.y - A.y) * cross M B z ≤ 0 :=
        mul_nonpos_iff.mpr (Or.inl ⟨by linarith, hlow z hz⟩)
      have h2 : 0 ≤ (B.y - M.y) * cross A M z :=
        mul_nonneg_iff.mpr (Or.inr ⟨by linarith, hup z hz⟩)
      nlinarith [hup z hz]


/-- Three-point expansion identity (x-weighted). -/
theorem line_ident_x (A M x y w : Point) :
    (M.x - A.x) * cross x y w
      = (y.x - x.x) * cross A M w + (w.x - y.x) * cross A M x
        + (x.x - w.x) * cross A M y := by
  unfold cross
  ring

/-- Three-point expansion identity (y-weighted). -/
theorem line_ident_y (A M x y w : Point) :
    (M.y - A.y) * cross x y w
      = (y.y - x.y) * cross A M w + (w.y - y.y) * cross A M x
        + (x.y - w.y) * cross A M y := by
  unfold cross
  ring

/-- Points on a common line through two distinct points are mutually
collinear. -/
theorem line_collinear (A M : Point) (S : List Point) (hA : A ≠ M)
    (hall : ∀ z ∈ S, cross A M z = 0) :
    ∀ x ∈ S, ∀ y ∈ S, ∀ w ∈ S, cross x y w = 0 := by
  intro x hx y hy w hw
  by_cases hxx : A.x = M.x
  · -- use the y-identity; A ≠ M forces A.y ≠ M.y
    have hyy : A.y ≠ M.y := by
      intro h
      exact hA (by cases A; cases M; simp only [Point.mk.injEq]; exact ⟨hxx, h⟩)
    have hid := line_ident_y A M x y w
    rw [hall x hx, hall y hy, hall w hw] at hid
    simp at hid
    rcases hid with h | h
    · exact absurd (by linarith : A.y = M.y) hyy
    · exact h
  · have hid := line_ident_x A M x y w
    rw [hall x hx, hall y hy, hall w hw] at hid
    simp at hid
    rcases hid with h | h
    · exact absurd (by linarith : A.x = M.x) hxx
    · exact h


/-- Swapping the outer points of `cross` negates it. -/
theorem cross_swap (r q p : Point) : cross r q p = -(cross p q r) := by
  unfold cross
  ring

/-- Adjacent elements of a `lexGe`-pairwise chain are `lexLe`-ordered
upward. -/
theorem pairwise_getD_adj (d : Point) :
    ∀ (h : List Point), List.Pairwise lexGe h → ∀ i, i + 1 < h.length →
      lexLe (h.getD (i + 1) d) (h.getD i d)
  | [], _, i, hlen => by simp at hlen
  | [a], _, i, hlen => by simp at hlen
  | a :: b :: t, hp, 0, _ => by
      simpa [lexGe] using (List.pairwise_cons.mp hp).1 b (List.mem_cons_self b t)
  | a :: b :: t, hp, (i + 1), hlen => by
      have := pairwise_getD_adj d (b :: t) (List.pairwise_cons.mp hp).2 i
        (by simpa using hlen)
      simpa using this

/-- `getD` through `map pointNeg`. -/
theorem getD_map_pointNeg (l : List Point) (i : ℕ) :
    (l.map pointNeg).getD i ⟨0, 0⟩ = pointNeg (l.getD i ⟨0, 0⟩) := by
  rw [List.getD_eq_getElem?_getD, List.getD_eq_getElem?_getD, List.getElem?_map]
  cases h : l[i]? with
  | none => simp [pointNeg]
  | some a => rfl

/-- `tail.reverse` indexing back into the chain. -/
theorem getD_tail_reverse (l : List Point) (i : ℕ) (h : i + 1 < l.length)
    (d : Point) :
    l.tail.reverse.getD i d = l.getD (l.length - 1 - i) d := by
  have hlen : l.tail.length = l.length - 1 := List.length_tail l
  rw [getD_reverse l.tail i (by omega) d, getD_tail]
  congr 1
  omega

/-- `getD` at the last index recovers `getLast?`. -/
theorem getD_length_sub_one (l : List Point) (x : Point)
    (hx : l.getLast? = some x) : l.getD (l.length - 1) ⟨0, 0⟩ = x := by
  rw [List.getD_eq_getElem?_getD, ← List.getLast?_eq_getElem?, hx]
  rfl

/-- A sorted list whose last element equals its head is constant. -/
theorem sorted_head_last_all_eq (s0 s1 : Point) (rest : List Point)
    (hs : List.Pairwise lexLe (s0 :: s1 :: rest))
    (heq : rest.getLastD s1 = s0) :
    ∀ z ∈ s0 :: s1 :: rest, z = s0 := by
  intro z hz
  have h1 : lexLe s0 z := sorted_head_lexLe s0 (s1 :: rest) hs z hz
  have h2 : lexLe z ((s1 :: rest).getLastD s0) :=
    sorted_lexLe_getLastD (s1 :: rest) s0 hs z hz
  rw [List.getLastD_cons, heq] at h2
  exact lexLe_antisymm z s0 h2 h1

/-- Transporting sortedness through reversal and central reflection. -/
theorem sorted_neg_reverse {S : List Point} (h : List.Pairwise lexLe S) :
    List.Pairwise lexLe (S.reverse.map pointNeg) := by
  rw [List.pairwise_map, List.pairwise_reverse]
  exact h.imp fun hab => lexLe_pointNeg.mpr hab

/-- At a hull junction the turn is strict: a zero turn would force all
points onto one supporting line, collapsing the chains. -/
theorem junction_strict (A M B : Point) (S : List Point)
    (hAM : lexLe A M) (hBM : lexLe B M) (hA : A ≠ M) (hB : B ≠ M)
    (hBS : B ∈ S)
    (hup : ∀ z ∈ S, cross A M z ≤ 0) (hlow : ∀ z ∈ S, cross M B z ≤ 0)
    (hncol : ¬ (∀ x ∈ S, ∀ y ∈ S, ∀ w ∈ S, cross x y w = 0)) :
    cross A M B < 0 := by
  rcases lt_or_eq_of_le (hup B hBS) with h | h
  · exact h
  · exact absurd (line_collinear A M S hA
      (sliver_line A M B S h hAM hBM hA hB hup hlow)) hncol

/-- The two-chain shape of `getHullPresorted` on inputs of length at
least two. -/
theorem getHullPresorted_shape (S : List Point) (h2 : ¬ S.length ≤ 1) :
    getHullPresorted S =
      if (buildChain S).tail.reverse.length = 1 ∧
          (buildChain S.reverse).tail.reverse.length = 1 ∧
          (buildChain S).tail.reverse.headI = (buildChain S.reverse).tail.reverse.headI
        then (buildChain S).tail.reverse
        else (buildChain S).tail.reverse ++ (buildChain S.reverse).tail.reverse := by
  unfold getHullPresorted
  rw [if_neg h2]

/-- Containment half of hull correctness on sorted input with at least
two points. -/
theorem hull_main_containment (s0 s1 : Point) (rest : List Point)
    (hsorted : List.Pairwise lexLe (s0 :: s1 :: rest)) :
    ∀ p ∈ s0 :: s1 :: rest, toPair p ∈
      convexHull ℚ
        {q : ℚ × ℚ | ∃ v ∈ getHullPresorted (s0 :: s1 :: rest), toPair v = q} := by
  have hshape := getHullPresorted_shape (s0 :: s1 :: rest) (by simp)
  set Sl : List Point := s0 :: s1 :: rest with hSl
  have hlenSl : Sl.length = rest.length + 2 := by rw [hSl]; simp
  set U : List Point := buildChain Sl with hUdef
  set L : List Point := buildChain Sl.reverse with hLdef
  set T : List Point := Sl.reverse.map pointNeg with hTdef
  set LT : List Point := buildChain T with hLTdef
  have hUinv : ChainInv Sl U := buildChain_inv Sl (by simp [hSl]) hsorted
  obtain ⟨hUne, hUsort, hUmem, hUturns, hUhead, hUlast, hUcov⟩ := hUinv
  have hTsorted : List.Pairwise lexLe T := sorted_neg_reverse hsorted
  have hLTinv : ChainInv T LT := buildChain_inv T (by simp [hTdef, hSl]) hTsorted
  obtain ⟨hLTne, hLTsort, hLTmem, hLTturns, hLThead, hLTlast, hLTcov⟩ := hLTinv
  have hLmap : L = LT.map pointNeg := by
    rw [hLdef, hLTdef, hTdef, buildChain_map_pointNeg, map_pointNeg_invol]
  have hLTmap : LT = L.map pointNeg := by
    rw [hLmap, map_pointNeg_invol]
  have hSlast : Sl.getLast? = some (rest.getLastD s1) := by
    rw [hSl, getLast?_eq_getLastD, List.getLastD_cons]
  have hUhead2 : U.head? = some (rest.getLastD s1) := by rw [hUhead, hSlast]
  have hUlast2 : U.getLast? = some s0 := by rw [hUlast, hSl]; rfl
  have hThead : T.head? = some (pointNeg (rest.getLastD s1)) := by
    rw [hTdef, List.head?_map, List.head?_reverse, hSlast]
    rfl
  have hTlast : T.getLast? = some (pointNeg s0) := by
    rw [hTdef, List.getLast?_map, List.getLast?_reverse, hSl]
    rfl
  have hLThead2 : LT.head? = some (pointNeg s0) := by rw [hLThead, hTlast]
  have hLTlast2 : LT.getLast? = some (pointNeg (rest.getLastD s1)) := by
    rw [hLTlast, hThead]
  have hLhead2 : L.head? = some s0 := by
    rw [hLmap, List.head?_map, hLThead2]
    simp [pointNeg_invol]
  have hLlast2 : L.getLast? = some (rest.getLastD s1) := by
    rw [hLmap, List.getLast?_map, hLTlast2]
    simp [pointNeg_invol]
  by_cases hsp : U.tail.reverse.length = 1 ∧ L.tail.reverse.length = 1 ∧
      U.tail.reverse.headI = L.tail.reverse.headI
  · -- special single-point branch: all points coincide
    rw [if_pos hsp] at hshape
    obtain ⟨hu1, hl1, hhd⟩ := hsp
    have hUlen : U.length = 2 := by
      rw [List.length_reverse, List.length_tail] at hu1
      omega
    obtain ⟨u0, u1, hUeq⟩ := List.length_eq_two.mp hUlen
    have hu1s : u1 = s0 := by
      rw [hUeq] at hUlast2
      simpa using hUlast2
    have hLlen : L.length = 2 := by
      rw [List.length_reverse, List.length_tail] at hl1
      omega
    obtain ⟨l0, l1, hLeq⟩ := List.length_eq_two.mp hLlen
    have hl1M : l1 = rest.getLastD s1 := by
      rw [hLeq] at hLlast2
      simpa using hLlast2
    have hs0M : s0 = rest.getLastD s1 := by
      rw [hUeq, hLeq] at hhd
      simp at hhd
      rw [hu1s, hl1M] at hhd
      exact hhd
    have hall : ∀ z ∈ Sl, z = s0 := fun z hz =>
      sorted_head_last_all_eq s0 s1 rest hsorted hs0M.symm z hz
    intro p hp
    have hp0 : p = s0 := hall p hp
    rw [hshape, hUeq, hp0]
    refine subset_convexHull ℚ _ ⟨u1, ?_, ?_⟩
    · simp
    · rw [hu1s]
  · -- main two-chain branch
    rw [if_neg hsp] at hshape
    have hs0M : s0 ≠ rest.getLastD s1 := by
      intro he
      apply hsp
      have hall : ∀ z ∈ Sl, z = s0 := fun z hz =>
        sorted_head_last_all_eq s0 s1 rest hsorted he.symm z hz
      have hrep : Sl = List.replicate Sl.length s0 := List.eq_replicate_length.mpr hall
      have hU2 : U = [s0, s0] := by
        rw [hUdef, hrep, hlenSl]
        exact buildChain_replicate s0 rest.length
      have hL2 : L = [s0, s0] := by
        rw [hLdef, hrep, hlenSl, List.reverse_replicate]
        exact buildChain_replicate s0 rest.length
      refine ⟨?_, ?_, ?_⟩ <;> simp [hU2, hL2]
    have hUlen2 : 2 ≤ U.length := by
      rcases Nat.lt_or_ge U.length 2 with h | h
      · exfalso
        have h0 : 0 < U.length := List.length_pos.mpr hUne
        have h1 : U.length = 1 := by omega
        obtain ⟨a, ha⟩ := List.length_eq_one.mp h1
        rw [ha] at hUhead2 hUlast2
        simp at hUhead2 hUlast2
        exact hs0M (by rw [← hUlast2, hUhead2]; exact getD_getLast? rest s1)
      · exact h
    have hLlen2 : 2 ≤ L.length := by
      rcases Nat.lt_or_ge L.length 2 with h | h
      · exfalso
        have h0 : 0 < L.length := by
          rw [hLmap, List.length_map]
          exact List.length_pos.mpr hLTne
        have h1 : L.length = 1 := by omega
        obtain ⟨a, ha⟩ := List.length_eq_one.mp h1
        rw [ha] at hLhead2 hLlast2
        simp at hLhead2 hLlast2
        exact hs0M (by rw [← hLhead2, hLlast2]; exact getD_getLast? rest s1)
      · exact h
    obtain ⟨A, U2, hUeq⟩ : ∃ A U2, U = rest.getLastD s1 :: A :: U2 := by
      obtain ⟨a, t, hat⟩ := List.exists_cons_of_ne_nil hUne
      obtain ⟨b, t2, hbt⟩ := List.exists_cons_of_ne_nil
        (show t ≠ [] by
          intro h
          rw [hat, h] at hUlen2
          simp at hUlen2)
      have ha : a = rest.getLastD s1 := by
        rw [hat] at hUhead2
        simpa using hUhead2
      exact ⟨b, t2, by rw [hat, hbt, ha]⟩
    obtain ⟨l1, L2, hLeq⟩ : ∃ l1 L2, L = s0 :: l1 :: L2 := by
      obtain ⟨a, t, hat⟩ := List.exists_cons_of_ne_nil
        (show L ≠ [] from by
          intro h
          rw [h] at hLlen2
          simp at hLlen2)
      obtain ⟨b, t2, hbt⟩ := List.exists_cons_of_ne_nil
        (show t ≠ [] by
          intro h
          rw [hat, h] at hLlen2
          simp at hLlen2)
      have ha : a = s0 := by
        rw [hat] at hLhead2
        simpa using hLhead2
      exact ⟨b, t2, by rw [hat, hbt, ha]⟩
    have hMtail : rest.getLastD s1 ∈ L.tail := by
      have h1 : (l1 :: L2).getLast? = some (rest.getLastD s1) := by
        rw [hLeq, List.getLast?_cons_cons] at hLlast2
        exact hLlast2
      have h2 : rest.getLastD s1 ∈ l1 :: L2 :=
        List.mem_of_mem_getLast? (by simp [h1])
      rw [hLeq]
      exact h2
    have hs0tail : s0 ∈ U.tail := by
      have h1 : (A :: U2).getLast? = some s0 := by
        rw [hUeq, List.getLast?_cons_cons] at hUlast2
        exact hUlast2
      have h2 : s0 ∈ A :: U2 := List.mem_of_mem_getLast? (by simp [h1])
      rw [hUeq]
      exact h2
    have hUsubO : ∀ x ∈ U, x ∈ U.tail.reverse ++ L.tail.reverse := by
      intro x hx
      rw [hUeq] at hx
      rcases List.mem_cons.mp hx with rfl | hx2
      · exact List.mem_append_right _ (List.mem_reverse.mpr hMtail)
      · refine List.mem_append_left _ (List.mem_reverse.mpr ?_)
        rw [hUeq]
        exact hx2
    have hLsubO : ∀ x ∈ L, x ∈ U.tail.reverse ++ L.tail.reverse := by
      intro x hx
      rw [hLeq] at hx
      rcases List.mem_cons.mp hx with rfl | hx2
      · exact List.mem_append_left _ (List.mem_reverse.mpr hs0tail)
      · refine List.mem_append_right _ (List.mem_reverse.mpr ?_)
        rw [hLeq]
        exact hx2
    intro p hp
    rw [hshape]
    have hcovU : CovChain U p := hUcov p hp
    have hpT : pointNeg p ∈ T := by
      rw [hTdef]
      exact List.mem_map_of_mem pointNeg (List.mem_reverse.mpr hp)
    have hcovL : CovChain LT (pointNeg p) := hLTcov (pointNeg p) hpT
    rcases covchain_elim U p hcovU with ⟨preU, postU, aU, bU, hUsp, hcu⟩ | hlastU
    · rcases covchain_elim LT (pointNeg p) hcovL with
        ⟨preL, postL, aL, bL, hLsp, hcl⟩ | hlastL
      · -- sandwiched between an upper and a lower pair
        have haU : aU ∈ U := by
          rw [hUsp]
          exact List.mem_append_right _
            (List.mem_cons_of_mem _ (List.mem_cons_self _ _))
        have hbU : bU ∈ U := by
          rw [hUsp]
          exact List.mem_append_right _ (List.mem_cons_self _ _)
        have haL : pointNeg aL ∈ L := by
          rw [hLmap]
          refine List.mem_map_of_mem pointNeg ?_
          rw [hLsp]
          exact List.mem_append_right _
            (List.mem_cons_of_mem _ (List.mem_cons_self _ _))
        have hbL : pointNeg bL ∈ L := by
          rw [hLmap]
          refine List.mem_map_of_mem pointNeg ?_
          rw [hLsp]
          exact List.mem_append_right _ (List.mem_cons_self _ _)
        have hl1 : lexLe (pointNeg bL) p := by
          have h := hcl.2.1
          rw [← pointNeg_invol bL] at h
          exact lexLe_pointNeg.mp h
        have hl2 : lexLe p (pointNeg aL) := by
          have h := hcl.1
          rw [← pointNeg_invol aL] at h
          exact lexLe_pointNeg.mp h
        have hlc : cross (pointNeg aL) (pointNeg bL) p ≤ 0 := by
          have h := hcl.2.2
          have hc := cross_pointNeg aL bL (pointNeg p)
          rw [pointNeg_invol p] at hc
          rw [hc]
          exact h
        exact quad_mem _ aU bU (pointNeg aL) (pointNeg bL) p
          ⟨aU, hUsubO aU haU, rfl⟩ ⟨bU, hUsubO bU hbU, rfl⟩
          ⟨pointNeg aL, hLsubO _ haL, rfl⟩ ⟨pointNeg bL, hLsubO _ hbL, rfl⟩
          hcu hl1 hl2 hlc
      · -- p is the common lexicographically largest endpoint
        rw [hLTlast2] at hlastL
        have h := Option.some.inj hlastL
        have hpM : p = rest.getLastD s1 := by
          have h2 := congrArg pointNeg h
          rw [pointNeg_invol, pointNeg_invol] at h2
          exact h2.symm
        refine subset_convexHull ℚ _ ⟨rest.getLastD s1, ?_, ?_⟩
        · exact hUsubO _ (by rw [hUeq]; exact List.mem_cons_self _ _)
        · rw [hpM]
    · -- p is the common lexicographically smallest endpoint
      rw [hUlast2] at hlastU
      have hps : p = s0 := (Option.some.inj hlastU).symm
      refine subset_convexHull ℚ _ ⟨s0, ?_, ?_⟩
      · exact hLsubO _ (by rw [hLeq]; exact List.mem_cons_self _ _)
      · rw [hps]

/-- Convexity half of hull correctness on sorted input with at least
two points: strict right turns at every cyclic vertex triple. -/
theorem hull_main_convex (s0 s1 : Point) (rest : List Point)
    (hsorted : List.Pairwise lexLe (s0 :: s1 :: rest)) :
    3 ≤ (getHullPresorted (s0 :: s1 :: rest)).length →
    ∀ i < (getHullPresorted (s0 :: s1 :: rest)).length,
      cross ((getHullPresorted (s0 :: s1 :: rest)).getD i ⟨0, 0⟩)
        ((getHullPresorted (s0 :: s1 :: rest)).getD
          ((i + 1) % (getHullPresorted (s0 :: s1 :: rest)).length) ⟨0, 0⟩)
        ((getHullPresorted (s0 :: s1 :: rest)).getD
          ((i + 2) % (getHullPresorted (s0 :: s1 :: rest)).length) ⟨0, 0⟩)
        < 0 := by
  have hshape := getHullPresorted_shape (s0 :: s1 :: rest) (by simp)
  set Sl : List Point := s0 :: s1 :: rest with hSl
  have hlenSl : Sl.length = rest.length + 2 := by rw [hSl]; simp
  set U : List Point := buildChain Sl with hUdef
  set L : List Point := buildChain Sl.reverse with hLdef
  set T : List Point := Sl.reverse.map pointNeg with hTdef
  set LT : List Point := buildChain T with hLTdef
  have hUinv : ChainInv Sl U := buildChain_inv Sl (by simp [hSl]) hsorted
  obtain ⟨hUne, hUsort, hUmem, hUturns, hUhead, hUlast, hUcov⟩ := hUinv
  have hTsorted : List.Pairwise lexLe T := sorted_neg_reverse hsorted
  have hLTinv : ChainInv T LT := buildChain_inv T (by simp [hTdef, hSl]) hTsorted
  obtain ⟨hLTne, hLTsort, hLTmem, hLTturns, hLThead, hLTlast, hLTcov⟩ := hLTinv
  have hLmap : L = LT.map pointNeg := by
    rw [hLdef, hLTdef, hTdef, buildChain_map_pointNeg, map_pointNeg_invol]
  have hLTmap : LT = L.map pointNeg := by
    rw [hLmap, map_pointNeg_invol]
  have hSlast : Sl.getLast? = some (rest.getLastD s1) := by
    rw [hSl, getLast?_eq_getLastD, List.getLastD_cons]
  have hUhead2 : U.head? = some (rest.getLastD s1) := by rw [hUhead, hSlast]
  have hUlast2 : U.getLast? = some s0 := by rw [hUlast, hSl]; rfl
  have hThead : T.head? = some (pointNeg (rest.getLastD s1)) := by
    rw [hTdef, List.head?_map, List.head?_reverse, hSlast]
    rfl
  have hTlast : T.getLast? = some (pointNeg s0) := by
    rw [hTdef, List.getLast?_map, List.getLast?_reverse, hSl]
    rfl
  have hLThead2 : LT.head? = some (pointNeg s0) := by rw [hLThead, hTlast]
  have hLTlast2 : LT.getLast? = some (pointNeg (rest.getLastD s1)) := by
    rw [hLTlast, hThead]
  have hLhead2 : L.head? = some s0 := by
    rw [hLmap, List.head?_map, hLThead2]
    simp [pointNeg_invol]
  have hLlast2 : L.getLast? = some (rest.getLastD s1) := by
    rw [hLmap, List.getLast?_map, hLTlast2]
    simp [pointNeg_invol]
  by_cases hsp : U.tail.reverse.length = 1 ∧ L.tail.reverse.length = 1 ∧
      U.tail.reverse.headI = L.tail.reverse.headI
  · -- special branch returns a single vertex: no triples
    rw [if_pos hsp] at hshape
    intro h3 i hi
    exfalso
    rw [hshape] at h3
    rw [hsp.1] at h3
    omega
  · -- main branch
    rw [if_neg hsp] at hshape
    intro h3 i hi
    have hs0M : s0 ≠ rest.getLastD s1 := by
      intro he
      apply hsp
      have hall : ∀ z ∈ Sl, z = s0 := fun z hz =>
        sorted_head_last_all_eq s0 s1 rest hsorted he.symm z hz
      have hrep : Sl = List.replicate Sl.length s0 := List.eq_replicate_length.mpr hall
      have hU2 : U = [s0, s0] := by
        rw [hUdef, hrep, hlenSl]
        exact buildChain_replicate s0 rest.length
      have hL2 : L = [s0, s0] := by
        rw [hLdef, hrep, hlenSl, List.reverse_replicate]
        exact buildChain_replicate s0 rest.length
      refine ⟨?_, ?_, ?_⟩ <;> simp [hU2, hL2]
    have hUlen2 : 2 ≤ U.length := by
      rcases Nat.lt_or_ge U.length 2 with h | h
      · exfalso
        have h0 : 0 < U.length := List.length_pos.mpr hUne
        have h1 : U.length = 1 := by omega
        obtain ⟨a, ha⟩ := List.length_eq_one.mp h1
        rw [ha] at hUhead2 hUlast2
        simp at hUhead2 hUlast2
        exact hs0M (by rw [← hUlast2, hUhead2]; exact getD_getLast? rest s1)
      · exact h
    have hLlen2 : 2 ≤ L.length := by
      rcases Nat.lt_or_ge L.length 2 with h | h
      · exfalso
        have h0 : 0 < L.length := by
          rw [hLmap, List.length_map]
          exact List.length_pos.mpr hLTne
        have h1 : L.length = 1 := by omega
        obtain ⟨a, ha⟩ := List.length_eq_one.mp h1
        rw [ha] at hLhead2 hLlast2
        simp at hLhead2 hLlast2
        exact hs0M (by rw [← hLhead2, hLlast2]; exact getD_getLast? rest s1)
      · exact h
    obtain ⟨A, U2, hUeq⟩ : ∃ A U2, U = rest.getLastD s1 :: A :: U2 := by
      obtain ⟨a, t, hat⟩ := List.exists_cons_of_ne_nil hUne
      obtain ⟨b, t2, hbt⟩ := List.exists_cons_of_ne_nil
        (show t ≠ [] by
          intro h
          rw [hat, h] at hUlen2
          simp at hUlen2)
      have ha : a = rest.getLastD s1 := by
        rw [hat] at hUhead2
        simpa using hUhead2
      exact ⟨b, t2, by rw [hat, hbt, ha]⟩
    obtain ⟨l1, L2, hLeq⟩ : ∃ l1 L2, L = s0 :: l1 :: L2 := by
      obtain ⟨a, t, hat⟩ := List.exists_cons_of_ne_nil
        (show L ≠ [] from by
          intro h
          rw [h] at hLlen2
          simp at hLlen2)
      obtain ⟨b, t2, hbt⟩ := List.exists_cons_of_ne_nil
        (show t ≠ [] by
          intro h
          rw [hat, h] at hLlen2
          simp at hLlen2)
      have ha : a = s0 := by
        rw [hat] at hLhead2
        simpa using hLhead2
      exact ⟨b, t2, by rw [hat, hbt, ha]⟩
    rw [hshape] at h3 hi ⊢
    set O : List Point := U.tail.reverse ++ L.tail.reverse with hOdef
    set m : ℕ := U.length - 1 with hm
    set k : ℕ := L.length - 1 with hk
    have hUlenm : U.length = m + 1 := by omega
    have hLlenk : L.length = k + 1 := by omega
    have hLTlen : LT.length = k + 1 := by
      have hh : LT.length = L.length := by rw [hLmap, List.length_map]
      omega
    have hupperLen : U.tail.reverse.length = m := by
      rw [List.length_reverse, List.length_tail]
    have hlowerLen : L.tail.reverse.length = k := by
      rw [List.length_reverse, List.length_tail]
    have hOlen : O.length = m + k := by
      rw [hOdef, List.length_append, hupperLen, hlowerLen]
    have hn3 : 3 ≤ m + k := by rw [hOlen] at h3; exact h3
    have hi2 : i < m + k := by rw [hOlen] at hi; exact hi
    have hm1 : 1 ≤ m := by omega
    have hk1 : 1 ≤ k := by omega
    have hupperD : ∀ j, j < m → O.getD j ⟨0, 0⟩ = U.getD (m - j) ⟨0, 0⟩ := by
      intro j hj
      rw [hOdef, List.getD_append _ _ _ _ (by rw [hupperLen]; exact hj),
        getD_tail_reverse U j (by omega) ⟨0, 0⟩]
    have hlowerD : ∀ j, m ≤ j → j < m + k →
        O.getD j ⟨0, 0⟩ = L.getD (m + k - j) ⟨0, 0⟩ := by
      intro j hj1 hj2
      rw [hOdef, List.getD_append_right _ _ _ _ (by rw [hupperLen]; exact hj1),
        hupperLen, getD_tail_reverse L (j - m) (by omega) ⟨0, 0⟩]
      congr 1
      omega
    have hUgetD0 : U.getD 0 ⟨0, 0⟩ = rest.getLastD s1 := by rw [hUeq]; rfl
    have hUgetD1 : U.getD 1 ⟨0, 0⟩ = A := by rw [hUeq]; rfl
    have hUgetDm : U.getD m ⟨0, 0⟩ = s0 := by
      have hh := getD_length_sub_one U s0 hUlast2
      rw [hUlenm] at hh
      simpa using hh
    have hLgetD0 : L.getD 0 ⟨0, 0⟩ = s0 := by rw [hLeq]; rfl
    have hLgetDk : L.getD k ⟨0, 0⟩ = rest.getLastD s1 := by
      have hh := getD_length_sub_one L (rest.getLastD s1) hLlast2
      rw [hLlenk] at hh
      simpa using hh
    have hLTgetD : ∀ j, LT.getD j ⟨0, 0⟩ = pointNeg (L.getD j ⟨0, 0⟩) := by
      intro j
      rw [hLTmap]
      exact getD_map_pointNeg L j
    have hO0 : O.getD 0 ⟨0, 0⟩ = s0 := by
      rw [hupperD 0 (by omega)]
      simpa using hUgetDm
    have hOwrap : ∀ j, m ≤ j → j ≤ m + k →
        O.getD (j % (m + k)) ⟨0, 0⟩ = L.getD (m + k - j) ⟨0, 0⟩ := by
      intro j hj1 hj2
      rcases eq_or_lt_of_le hj2 with he | hlt
      · rw [he, Nat.mod_self, Nat.sub_self, hO0, hLgetD0]
      · rw [Nat.mod_eq_of_lt hlt]
        exact hlowerD j hj1 hlt
    rw [hOlen]
    rcases (by omega :
        i + 2 < m ∨ i + 2 = m ∨ i + 1 = m ∨ (m ≤ i ∧ i + 2 ≤ m + k) ∨ i + 1 = m + k)
      with hc | hc | hc | ⟨hc1, hc2⟩ | hc
    · -- triple inside the upper chain
      rw [Nat.mod_eq_of_lt (by omega), Nat.mod_eq_of_lt (by omega),
        hupperD i (by omega), hupperD (i + 1) (by omega), hupperD (i + 2) hc]
      have ht := turns_getD ⟨0, 0⟩ U hUturns (m - i - 2) (by omega)
      rw [show m - i - 2 + 2 = m - i from by omega,
        show m - i - 2 + 1 = m - (i + 1) from by omega,
        show m - i - 2 = m - (i + 2) from by omega] at ht
      exact ht
    · -- triple ending at the right extreme
      rw [Nat.mod_eq_of_lt (by omega), Nat.mod_eq_of_lt (by omega),
        hupperD i (by omega), hupperD (i + 1) (by omega), hc,
        hlowerD m (by omega) (by omega),
        show m + k - m = k from by omega, hLgetDk, ← hUgetD0,
        show m - i = 2 from by omega, show m - (i + 1) = 1 from by omega]
      have ht := turns_getD ⟨0, 0⟩ U hUturns 0 (by omega)
      simpa using ht
    · -- junction at the right extreme
      have hBidx : k - 1 + 1 = k := by omega
      have hUsort2 := hUsort
      rw [hUeq] at hUsort2
      have hAM : lexLe A (rest.getLastD s1) :=
        (List.pairwise_cons.mp hUsort2).1 A (List.mem_cons_self _ _)
      have hBM : lexLe (L.getD (k - 1) ⟨0, 0⟩) (rest.getLastD s1) := by
        have hadj := pairwise_getD_adj ⟨0, 0⟩ LT hLTsort (k - 1) (by omega)
        rw [hBidx, hLTgetD k, hLTgetD (k - 1), hLgetDk] at hadj
        exact lexLe_pointNeg.mp hadj
      have hAne : A ≠ rest.getLastD s1 := by
        intro he
        rcases hU2c : U2 with _ | ⟨u2, U2t⟩
        · have hla : U.getLast? = some A := by rw [hUeq, hU2c]; rfl
          rw [hUlast2] at hla
          have hAs : s0 = A := Option.some.inj hla
          exact hs0M (by rw [hAs, he])
        · have hUt := hUturns
          rw [hUeq, hU2c] at hUt
          have h1 := hUt.1
          rw [he, cross_self_right] at h1
          exact absurd h1 (lt_irrefl 0)
      have hBne : L.getD (k - 1) ⟨0, 0⟩ ≠ rest.getLastD s1 := by
        intro he
        rcases Nat.lt_or_ge k 2 with hk2 | hk2
        · have hkk : k = 1 := by omega
          rw [hkk, show (1 : ℕ) - 1 = 0 from rfl, hLgetD0] at he
          exact hs0M he
        · have ht := turns_getD ⟨0, 0⟩ LT hLTturns (k - 2) (by omega)
          rw [show k - 2 + 2 = k from by omega,
            show k - 2 + 1 = k - 1 from by omega,
            hLTgetD k, hLTgetD (k - 1), hLgetDk, he, cross_self_mid] at ht
          exact absurd ht (lt_irrefl 0)
      have hBS : L.getD (k - 1) ⟨0, 0⟩ ∈ Sl := by
        have hmem : L.getD (k - 1) ⟨0, 0⟩ ∈ LT.map pointNeg := by
          rw [← hLmap]
          rw [List.getD_eq_getElem?_getD, List.getElem?_eq_getElem (by omega)]
          exact List.getElem_mem (by omega)
        obtain ⟨c, hcLT, hceq⟩ := List.mem_map.mp hmem
        have hcT := hLTmem c hcLT
        rw [hTdef] at hcT
        obtain ⟨w, hwS, hweq⟩ := List.mem_map.mp hcT
        rw [← hceq, ← hweq, pointNeg_invol]
        exact List.mem_reverse.mp hwS
      have hup : ∀ z ∈ Sl, cross A (rest.getLastD s1) z ≤ 0 := by
        intro z hz
        have hpb := cov_upgrade U z hUsort hUturns (hUcov z hz)
        rw [hUeq] at hpb
        exact hpb.1
      have hlow : ∀ z ∈ Sl,
          cross (rest.getLastD s1) (L.getD (k - 1) ⟨0, 0⟩) z ≤ 0 := by
        intro z hz
        have hzT : pointNeg z ∈ T := by
          rw [hTdef]
          exact List.mem_map_of_mem pointNeg (List.mem_reverse.mpr hz)
        have hpb := cov_upgrade LT (pointNeg z) hLTsort hLTturns (hLTcov _ hzT)
        have hgd := pairsBelow_getD ⟨0, 0⟩ LT (pointNeg z) hpb (k - 1) (by omega)
        rw [hBidx, hLTgetD k, hLTgetD (k - 1), hLgetDk, cross_pointNeg] at hgd
        exact hgd
      have hncol : ¬ (∀ x ∈ Sl, ∀ y ∈ Sl, ∀ w ∈ Sl, cross x y w = 0) := by
        intro hcol
        have hbU : U.length = 2 := by
          rw [hUdef, buildChain_collinear Sl (by omega) hcol]
          rfl
        have hbL : L.length = 2 := by
          have hcolr : ∀ x ∈ Sl.reverse, ∀ y ∈ Sl.reverse, ∀ w ∈ Sl.reverse,
              cross x y w = 0 := fun x hx y hy w hw =>
            hcol x (List.mem_reverse.mp hx) y (List.mem_reverse.mp hy)
              w (List.mem_reverse.mp hw)
          rw [hLdef,
            buildChain_collinear Sl.reverse (by rw [List.length_reverse]; omega) hcolr]
          rfl
        omega
      rw [Nat.mod_eq_of_lt (by omega), hupperD i (by omega),
        show m - i = 1 from by omega, hUgetD1, hc,
        hlowerD m (by omega) (by omega), show m + k - m = k from by omega, hLgetDk,
        show i + 2 = m + 1 from by omega, hOwrap (m + 1) (by omega) (by omega),
        show m + k - (m + 1) = k - 1 from by omega]
      exact junction_strict A (rest.getLastD s1) (L.getD (k - 1) ⟨0, 0⟩) Sl
        hAM hBM hAne hBne hBS hup hlow hncol
    · -- triple inside the (possibly wrapped) lower chain
      rw [hlowerD i hc1 (by omega), Nat.mod_eq_of_lt (by omega),
        hlowerD (i + 1) (by omega) (by omega),
        hOwrap (i + 2) (by omega) hc2]
      have ht := turns_getD ⟨0, 0⟩ LT hLTturns (m + k - i - 2) (by omega)
      rw [show m + k - i - 2 + 2 = m + k - i from by omega,
        show m + k - i - 2 + 1 = m + k - (i + 1) from by omega,
        show m + k - i - 2 = m + k - (i + 2) from by omega,
        hLTgetD (m + k - i), hLTgetD (m + k - (i + 1)), hLTgetD (m + k - (i + 2)),
        cross_pointNeg] at ht
      exact ht
    · -- junction at the left extreme
      have hwrap1 : (i + 1) % (m + k) = 0 := by
        rw [hc, Nat.mod_self]
      have hwrap2 : (i + 2) % (m + k) = 1 := by
        have hii : i + 2 = (m + k) + 1 := by omega
        rw [hii, Nat.add_mod_left]
        exact Nat.mod_eq_of_lt (by omega)
      have hO1 : O.getD 1 ⟨0, 0⟩ = U.getD (m - 1) ⟨0, 0⟩ := by
        rcases Nat.lt_or_ge 1 m with h1m | h1m
        · exact hupperD 1 h1m
        · have hmm1 : m = 1 := by omega
          rw [hlowerD 1 (by omega) (by omega),
            show m + k - 1 = k from by omega, hLgetDk, hmm1]
          simpa using hUgetD0.symm
      rw [hwrap1, hwrap2, hO0, hO1, hlowerD i (by omega) (by omega),
        show m + k - i = 1 from by omega]
      rw [← cross_pointNeg]
      have hadjL := pairwise_getD_adj ⟨0, 0⟩ LT hLTsort 0 (by omega)
      simp only [Nat.zero_add] at hadjL
      rw [hLTgetD 1, hLTgetD 0, hLgetD0] at hadjL
      have hadjU := pairwise_getD_adj ⟨0, 0⟩ U hUsort (m - 1) (by omega)
      rw [show m - 1 + 1 = m from by omega, hUgetDm] at hadjU
      have hBMn : lexLe (pointNeg (U.getD (m - 1) ⟨0, 0⟩)) (pointNeg s0) :=
        lexLe_pointNeg.mpr hadjU
      have hAn : pointNeg (L.getD 1 ⟨0, 0⟩) ≠ pointNeg s0 := by
        intro he
        have h1 : L.getD 1 ⟨0, 0⟩ = s0 := by
          have hh := congrArg pointNeg he
          rwa [pointNeg_invol, pointNeg_invol] at hh
        rcases Nat.lt_or_ge k 2 with hk2 | hk2
        · have hkk : k = 1 := by omega
          have hLk := hLgetDk
          rw [hkk] at hLk
          rw [hLk] at h1
          exact hs0M h1.symm
        · have ht := turns_getD ⟨0, 0⟩ LT hLTturns 0 (by omega)
          simp only [Nat.zero_add] at ht
          rw [hLTgetD 2, hLTgetD 1, hLTgetD 0, hLgetD0, h1, cross_self_right] at ht
          exact absurd ht (lt_irrefl 0)
      have hBn : pointNeg (U.getD (m - 1) ⟨0, 0⟩) ≠ pointNeg s0 := by
        intro he
        have h1 : U.getD (m - 1) ⟨0, 0⟩ = s0 := by
          have hh := congrArg pointNeg he
          rwa [pointNeg_invol, pointNeg_invol] at hh
        rcases Nat.lt_or_ge m 2 with hm2 | hm2
        · rw [show m - 1 = 0 from by omega] at h1
          rw [hUgetD0] at h1
          exact hs0M h1.symm
        · have ht := turns_getD ⟨0, 0⟩ U hUturns (m - 2) (by omega)
          rw [show m - 2 + 2 = m from by omega,
            show m - 2 + 1 = m - 1 from by omega,
            hUgetDm, h1, cross_self_mid] at ht
          exact absurd ht (lt_irrefl 0)
      have hBSn : pointNeg (U.getD (m - 1) ⟨0, 0⟩) ∈ T := by
        have hmem : U.getD (m - 1) ⟨0, 0⟩ ∈ U := by
          rw [List.getD_eq_getElem?_getD, List.getElem?_eq_getElem (by omega)]
          exact List.getElem_mem (by omega)
        rw [hTdef]
        exact List.mem_map_of_mem pointNeg (List.mem_reverse.mpr (hUmem _ hmem))
      have hupn : ∀ z ∈ T, cross (pointNeg (L.getD 1 ⟨0, 0⟩)) (pointNeg s0) z ≤ 0 := by
        intro z hz
        have hpb := cov_upgrade LT z hLTsort hLTturns (hLTcov z hz)
        have hgd := pairsBelow_getD ⟨0, 0⟩ LT z hpb 0 (by omega)
        simp only [Nat.zero_add] at hgd
        rw [hLTgetD 1, hLTgetD 0, hLgetD0] at hgd
        exact hgd
      have hlown : ∀ z ∈ T,
          cross (pointNeg s0) (pointNeg (U.getD (m - 1) ⟨0, 0⟩)) z ≤ 0 := by
        intro z hz
        rw [hTdef] at hz
        obtain ⟨w, hwS, hweq⟩ := List.mem_map.mp hz
        have hw : w ∈ Sl := List.mem_reverse.mp hwS
        have hpb := cov_upgrade U w hUsort hUturns (hUcov w hw)
        have hgd := pairsBelow_getD ⟨0, 0⟩ U w hpb (m - 1) (by omega)
        rw [show m - 1 + 1 = m from by omega, hUgetDm] at hgd
        rw [← hweq, cross_pointNeg]
        exact hgd
      have hncolT : ¬ (∀ x ∈ T, ∀ y ∈ T, ∀ w ∈ T, cross x y w = 0) := by
        intro hcolT
        have hcol : ∀ x ∈ Sl, ∀ y ∈ Sl, ∀ w ∈ Sl, cross x y w = 0 := by
          intro x hx y hy w hw
          have hmem : ∀ u ∈ Sl, pointNeg u ∈ T := by
            intro u hu
            rw [hTdef]
            exact List.mem_map_of_mem pointNeg (List.mem_reverse.mpr hu)
          have hh := hcolT (pointNeg x) (hmem x hx) (pointNeg y) (hmem y hy)
            (pointNeg w) (hmem w hw)
          rwa [cross_pointNeg] at hh
        have hbU : U.length = 2 := by
          rw [hUdef, buildChain_collinear Sl (by omega) hcol]
          rfl
        have hbL : L.length = 2 := by
          have hcolr : ∀ x ∈ Sl.reverse, ∀ y ∈ Sl.reverse, ∀ w ∈ Sl.reverse,
              cross x y w = 0 := fun x hx y hy w hw =>
            hcol x (List.mem_reverse.mp hx) y (List.mem_reverse.mp hy)
              w (List.mem_reverse.mp hw)
          rw [hLdef,
            buildChain_collinear Sl.reverse (by rw [List.length_reverse]; omega) hcolr]
          rfl
        omega
      exact junction_strict (pointNeg (L.getD 1 ⟨0, 0⟩)) (pointNeg s0)
        (pointNeg (U.getD (m - 1) ⟨0, 0⟩)) T hadjL hBMn hAn hBn hBSn hupn hlown hncolT

/-- Hull correctness on sorted input of any length. -/
theorem hullPresorted_correct (S : List Point)
    (hsorted : List.Pairwise lexLe S) :
    (∀ p ∈ S, toPair p ∈
      convexHull ℚ {q : ℚ × ℚ | ∃ v ∈ getHullPresorted S, toPair v = q}) ∧
    (3 ≤ (getHullPresorted S).length → ∀ i < (getHullPresorted S).length,
      cross ((getHullPresorted S).getD i ⟨0, 0⟩)
        ((getHullPresorted S).getD ((i + 1) % (getHullPresorted S).length) ⟨0, 0⟩)
        ((getHullPresorted S).getD ((i + 2) % (getHullPresorted S).length) ⟨0, 0⟩)
        < 0) := by
  rcases S with _ | ⟨s0, S1⟩
  · constructor
    · intro p hp
      simp at hp
    · intro h3
      rw [show getHullPresorted [] = [] from rfl] at h3
      simp at h3
  · rcases S1 with _ | ⟨s1, rest⟩
    · constructor
      · intro p hp
        have hp0 : p = s0 := by simpa using hp
        subst hp0
        exact subset_convexHull ℚ _
          ⟨p, by rw [show getHullPresorted [p] = [p] from rfl]; simp, rfl⟩
      · intro h3
        rw [show getHullPresorted [s0] = [s0] from rfl] at h3
        simp at h3
    · exact ⟨hull_main_containment s0 s1 rest hsorted,
        hull_main_convex s0 s1 rest hsorted⟩

/-- C2: `getHull` returns a convex hull of its input: every input point
lies in the convex hull of the returned vertex set, and every cyclically
consecutive triple of returned vertices makes a strict right turn, i.e.
no non-left turn survives the chain construction. -/
theorem C2_hull_containment_convexity (pts : List Point) :
    (∀ p ∈ pts, toPair p ∈
      convexHull ℚ {q : ℚ × ℚ | ∃ v ∈ getHull pts, toPair v = q}) ∧
    (3 ≤ (getHull pts).length → ∀ i < (getHull pts).length,
      cross ((getHull pts).getD i ⟨0, 0⟩)
        ((getHull pts).getD ((i + 1) % (getHull pts).length) ⟨0, 0⟩)
        ((getHull pts).getD ((i + 2) % (getHull pts).length) ⟨0, 0⟩) < 0) := by
  have h := hullPresorted_correct (sortPoints pts) (sortPoints_sorted pts)
  constructor
  · intro p hp
    exact h.1 p ((sortPoints_perm pts).mem_iff.mpr hp)
  · exact h.2

/-- Witness for C2: the hull of a concrete six-point list contains the
input point `(0, 0)`, and the hull's first cyclic triple turns strictly. -/
theorem C2_hull_containment_convexity_witness :
    (toPair ⟨0, 0⟩ ∈
      convexHull ℚ {q : ℚ × ℚ | ∃ v ∈ getHull
        [⟨5, -5⟩, ⟨5, 5⟩, ⟨0, 0⟩, ⟨0, 0⟩, ⟨0, 0⟩, ⟨0, 0⟩], toPair v = q}) ∧
    cross
      ((getHull [⟨5, -5⟩, ⟨5, 5⟩, ⟨0, 0⟩, ⟨0, 0⟩, ⟨0, 0⟩, ⟨0, 0⟩]).getD 0 ⟨0, 0⟩)
      ((getHull [⟨5, -5⟩, ⟨5, 5⟩, ⟨0, 0⟩, ⟨0, 0⟩, ⟨0, 0⟩, ⟨0, 0⟩]).getD
        ((0 + 1) % (getHull [⟨5, -5⟩, ⟨5, 5⟩, ⟨0, 0⟩, ⟨0, 0⟩, ⟨0, 0⟩, ⟨0, 0⟩]).length)
        ⟨0, 0⟩)
      ((getHull [⟨5, -5⟩, ⟨5, 5⟩, ⟨0, 0⟩, ⟨0, 0⟩, ⟨0, 0⟩, ⟨0, 0⟩]).getD
        ((0 + 2) % (getHull [⟨5, -5⟩, ⟨5, 5⟩, ⟨0, 0⟩, ⟨0, 0⟩, ⟨0, 0⟩, ⟨0, 0⟩]).length)
        ⟨0, 0⟩) < 0 := by
  constructor
  · exact (C2_hull_containment_convexity _).1 ⟨0, 0⟩
      (List.mem_cons_of_mem _ (List.mem_cons_of_mem _ (List.mem_cons_self _ _)))
  · exact (C2_hull_containment_convexity _).2
      (by rw [hull_zero_eval]; decide) 0 (by rw [hull_zero_eval]; decide)

end GraceArea
